import Mathlib

/-!
Verification development for the nats-mq bridge.

Part 1 — the streaming approximate histogram (`stats` package).
Bin values and counts are Go `float64`; we model them as exact rationals
(the claims under study concern the algorithm's structure, not IEEE
rounding).  `Total` is a Go `uint64` modelled as `Nat` (the claims never
approach 2^64).  Division of rationals is Lean's total division; the one
place the Go code can divide by zero (merging two bins whose counts sum
to zero) is outside every claim's hypotheses, which keep counts positive.
-/

/-- A histogram bin: a value and a count (Go struct `Bin`). -/
structure Bin where
  Value : ℚ
  Count : ℚ
deriving DecidableEq

/-- Go struct `Histogram`: bins, the maximum bin count, and the total
number of samples.  `MaxBins` is a Go `int` that every claim takes ≥ 1. -/
structure Histogram where
  Bins : List Bin
  MaxBins : ℕ
  Total : ℕ
deriving DecidableEq

/-- `NewHistogram(n)`: empty bins, max `n`, total 0. -/
def NewHistogram (n : ℕ) : Histogram := ⟨[], n, 0⟩

/-- `Scale(s)`: multiply every bin value by `s`; counts and total untouched. -/
def Histogram.Scale (h : Histogram) (s : ℚ) : Histogram :=
  { h with Bins := h.Bins.map (fun b => { b with Value := b.Value * s }) }

/-- Body of `Add`'s scan: increment the bin equal to `n`, or insert a
fresh `(n,1)` bin before the first bin whose value exceeds `n`, or append
at the end (Go `Histogram.Add`, lines 61–83). -/
def addToBins : List Bin → ℚ → List Bin
  | [], n => [⟨n, 1⟩]
  | b :: rest, n =>
    if b.Value = n then { b with Count := b.Count + 1 } :: rest
    else if n < b.Value then ⟨n, 1⟩ :: b :: rest
    else b :: addToBins rest n

/-- Deltas between adjacent bin values, in order (`Bins[i].Value - Bins[i-1].Value`). -/
def pairDeltas : List Bin → List ℚ
  | a :: b :: rest => (b.Value - a.Value) :: pairDeltas (b :: rest)
  | _ => []

/-- Go's scan for the index of the first strictly smallest delta,
starting from the sentinel `minDelta = 1e99` and `minDeltaIndex = 0`
(`Histogram.trim`, lines 161–172).  `i` is the index of the head delta
(deltas are indexed from 1), `best` the best index so far. -/
def scanMin : List ℚ → ℚ → ℕ → ℕ → ℕ
  | [], _, _, best => best
  | d :: rest, minD, i, best =>
    if d < minD then scanMin rest d (i + 1) i else scanMin rest minD (i + 1) best

/-- The Go sentinel `1e99` (exact here; the claims only need that
realistic deltas are far below it and the counterexample far above). -/
def trimSentinel : ℚ := 10 ^ 99

/-- `minDeltaIndex` as computed by `Histogram.trim`. -/
def minDeltaIndex (bins : List Bin) : ℕ :=
  scanMin (pairDeltas bins) trimSentinel 1 0

/-- Merge two bins: count-weighted mean value, summed counts. -/
def mergeBin (a b : Bin) : Bin :=
  ⟨(a.Value * a.Count + b.Value * b.Count) / (a.Count + b.Count), a.Count + b.Count⟩

/-- Replace bins `j-1` and `j` by their merge (Go lines 174–186, which
build `Bins[0:j-1] ++ [merged] ++ Bins[j+1:]`).  For `j = 0` or an
out-of-range `j` (where Go would panic on `Bins[-1]`) the list is
returned unchanged. -/
def mergeAt : List Bin → ℕ → List Bin
  | a :: b :: rest, 1 => mergeBin a b :: rest
  | a :: rest, j + 2 => a :: mergeAt rest (j + 1)
  | l, _ => l

/-- Fuelled version of the `trim` loop: while `len(Bins) > MaxBins`,
merge at `minDeltaIndex`.  Each iteration shortens `Bins` by one, so fuel
`Bins.length` always suffices; the extra guard `1 ≤ j ∧ j < len` stops
exactly where the Go code would panic (`Bins[-1]` when no delta beats
the `1e99` sentinel). -/
def trimAux : ℕ → Histogram → Histogram
  | 0, h => h
  | fuel + 1, h =>
    if h.MaxBins < h.Bins.length then
      if 1 ≤ minDeltaIndex h.Bins ∧ minDeltaIndex h.Bins < h.Bins.length then
        trimAux fuel { h with Bins := mergeAt h.Bins (minDeltaIndex h.Bins) }
      else h
    else h

/-- `Histogram.trim` (Go lines 158–188). -/
def Histogram.trim (h : Histogram) : Histogram := trimAux h.Bins.length h

/-- `Add(n)`: bump total, scan-insert, then (deferred) trim. -/
def Histogram.Add (h : Histogram) (n : ℚ) : Histogram :=
  Histogram.trim { Bins := addToBins h.Bins n, MaxBins := h.MaxBins, Total := h.Total + 1 }

/-- Insertion into a value-sorted bin list. -/
def insertBinSorted (b : Bin) : List Bin → List Bin
  | [] => [b]
  | c :: rest => if b.Value ≤ c.Value then b :: c :: rest else c :: insertBinSorted b rest

/-- Sort bins ascending by value (Go uses `sort.Sort(sortByValue ...)`,
which guarantees a value-sorted permutation; we realize it by insertion
sort — every claim in scope is invariant under permuting equal-valued bins). -/
def sortBins : List Bin → List Bin
  | [] => []
  | b :: rest => insertBinSorted b (sortBins rest)

/-- `MergeWith(other)`: add totals, concatenate bins, sort, trim
(Go lines 150–155). -/
def Histogram.MergeWith (h other : Histogram) : Histogram :=
  Histogram.trim
    { Bins := sortBins (h.Bins ++ other.Bins)
      MaxBins := h.MaxBins
      Total := h.Total + other.Total }

/-- The loop of `Quantile`: `count` starts at `q*Total` and each bin's
count is subtracted until it drops to ≤ 0 (Go lines 87–98). -/
def quantLoop : List Bin → ℚ → ℚ
  | [], _ => -1
  | b :: rest, count =>
    if count - b.Count ≤ 0 then b.Value else quantLoop rest (count - b.Count)

/-- `Quantile(q)` (Go lines 87–98). -/
def Histogram.Quantile (h : Histogram) (q : ℚ) : ℚ :=
  quantLoop h.Bins (q * (h.Total : ℚ))

/-- Result of a Go float64 division whose divisor may be zero. -/
inductive FVal
  | fin (q : ℚ)
  | nan
  | pinf
  | ninf
deriving DecidableEq

/-- IEEE division for a finite numerator: `0/0 = NaN`, `±x/0 = ±Inf`. -/
def fdiv (a b : ℚ) : FVal :=
  if b = 0 then (if a = 0 then .nan else if 0 < a then .pinf else .ninf)
  else .fin (a / b)

/-- `CDF(x)`: counts of bins with value ≤ x, divided (unguarded) by the
total (Go lines 102–111). -/
def Histogram.CDF (h : Histogram) (x : ℚ) : FVal :=
  fdiv (h.Bins.foldl (fun acc b => if b.Value ≤ x then acc + b.Count else acc) 0)
    (h.Total : ℚ)

/-- `Mean()`: 0 when the total is zero (guarded), else Σ value·count / total
(Go lines 114–126). -/
def Histogram.Mean (h : Histogram) : ℚ :=
  if h.Total = 0 then 0
  else (h.Bins.foldl (fun acc b => acc + b.Value * b.Count) 0) / (h.Total : ℚ)

/-- `Variance()`: 0 when the total is zero (guarded), else the count-weighted
sum of squared deviations from the mean, over the total (Go lines 129–142). -/
def Histogram.Variance (h : Histogram) : ℚ :=
  if h.Total = 0 then 0
  else
    (h.Bins.foldl
      (fun acc b => acc + b.Count * (b.Value - h.Mean) * (b.Value - h.Mean)) 0)
      / (h.Total : ℚ)

/-- `Count()` (Go lines 145–147). -/
def Histogram.Count (h : Histogram) : ℚ := (h.Total : ℚ)

/-- Bins sorted ascending by value. -/
def sortedBins (l : List Bin) : Prop := List.Pairwise (fun a b => a.Value ≤ b.Value) l

/-- Sum of the bin counts. -/
def binCountSum (l : List Bin) : ℚ := (l.map Bin.Count).sum

/-- A magnitude bound on values fed to `Add` under which adjacent deltas
always stay below the `1e99` sentinel of `trim` (`2 * histBound < 1e99`). -/
def histBound : ℚ := 10 ^ 98

/-- The claim's reading of `Quantile`: walk the bins in order accumulating
counts, and return the value of the first bin at which the cumulative
count reaches or exceeds the target; `acc` is the count accumulated so far. -/
def firstAtLeast : List Bin → ℚ → ℚ → Option ℚ
  | [], _, _ => none
  | b :: rest, acc, target =>
    if target ≤ acc + b.Count then some b.Value else firstAtLeast rest (acc + b.Count) target

/-- The claim's description of `Quantile(q)`: value of the first bin whose
cumulative count reaches or exceeds `q * Total`, `-1` when no bin does. -/
def quantileSpec (h : Histogram) (q : ℚ) : ℚ :=
  (firstAtLeast h.Bins 0 (q * (h.Total : ℚ))).getD (-1)

/-- Histograms reachable from `NewHistogram n` (`n ≥ 1`) by any sequence of
`Add`, `MergeWith` (with another reachable histogram) and `Scale`. -/
inductive ReachAny : Histogram → Prop
  | new : ∀ n : ℕ, 1 ≤ n → ReachAny (NewHistogram n)
  | add : ∀ (h : Histogram) (v : ℚ), ReachAny h → ReachAny (h.Add v)
  | merge : ∀ h other : Histogram, ReachAny h → ReachAny other → ReachAny (h.MergeWith other)
  | scale : ∀ (h : Histogram) (s : ℚ), ReachAny h → ReachAny (h.Scale s)

/-- Histograms reachable from `NewHistogram n` (`n ≥ 1`) by `Add` of values
of magnitude at most `histBound` and `MergeWith` of likewise-reachable
histograms (no `Scale`, matching the claim about `Add`/`MergeWith` sequences). -/
inductive ReachBounded : Histogram → Prop
  | new : ∀ n : ℕ, 1 ≤ n → ReachBounded (NewHistogram n)
  | add : ∀ (h : Histogram) (v : ℚ), ReachBounded h → |v| ≤ histBound → ReachBounded (h.Add v)
  | merge : ∀ h other : Histogram, ReachBounded h → ReachBounded other →
      ReachBounded (h.MergeWith other)

/-!
Part 2 — the connector runtime (`Queue2STANConnector`, `NATS2QueueConnector`,
`Queue2NATSConnector`).  The handlers and `Shutdown` methods are embedded as
functions from their inputs (the MQ callback error, the message-conversion
result, whether the publish/put/close succeeded — all supplied by the
environment) to the ordered list of observable actions they perform, plus the
successor state and returned error for `Shutdown`.  Logging, statistics and
MQ verbs are actions; data payloads irrelevant to the claims are omitted.
-/

/-- MQ option constants used by the connectors (values from the MQ client
library: `MQGMO_WAIT = 1`, `MQGMO_SYNCPOINT = 2`,
`MQGMO_FAIL_IF_QUIESCING = 8192`, `MQPMO_NO_SYNCPOINT = 4`). -/
def MQGMO_WAIT : ℕ := 1

/-- `MQGMO_SYNCPOINT` option bit. -/
def MQGMO_SYNCPOINT : ℕ := 2

/-- `MQGMO_FAIL_IF_QUIESCING` option bit. -/
def MQGMO_FAIL_IF_QUIESCING : ℕ := 8192

/-- `MQPMO_NO_SYNCPOINT` option bit. -/
def MQPMO_NO_SYNCPOINT : ℕ := 4

/-- `MQCC_OK` completion code. -/
def MQCC_OK : ℕ := 0

/-- `MQRC_NO_MSG_AVAILABLE` reason code (2033). -/
def MQRC_NO_MSG_AVAILABLE : ℕ := 2033

/-- The completion/reason pair delivered to an MQ callback. -/
structure MQReturn where
  MQCC : ℕ
  MQRC : ℕ
deriving DecidableEq

/-- Observable actions of a connector, in program order. -/
inductive Act
  | traceLog
  | noticeLog
  | statsIn
  | statsOut
  | statsTime
  | statsConnect
  | statsDisconnect
  | stanPublish
  | cmit
  | back
  | connectorError
  | put (opts : ℕ)
  | cbRegister (opts : ℕ)
  | ctlStart
  | ctlStop
  | close
  | disc
  | unsubscribe
deriving DecidableEq

/-- Actions that operate on an MQ/NATS handle (as opposed to logging or
statistics updates). -/
def Act.isHandleOp : Act → Bool
  | .put _ => true
  | .cbRegister _ => true
  | .ctlStart => true
  | .ctlStop => true
  | .close => true
  | .disc => true
  | .unsubscribe => true
  | .cmit => true
  | .back => true
  | .stanPublish => true
  | _ => false

/-- Actions that tear a connector down (close/disconnect/unsubscribe/stop
listener) — a handler that performs none of these keeps the connector
running. -/
def Act.isShutdownOp : Act → Bool
  | .close => true
  | .disc => true
  | .unsubscribe => true
  | .ctlStop => true
  | _ => false

/-- The get-message options `Queue2STANConnector.Start` registers its
callback with (queue2stan source lines 197–206):
`MQGMO_SYNCPOINT`, then `|= MQGMO_WAIT`, then `|= MQGMO_FAIL_IF_QUIESCING`. -/
def queue2stanGetOptions : ℕ :=
  (MQGMO_SYNCPOINT ||| MQGMO_WAIT) ||| MQGMO_FAIL_IF_QUIESCING

/-- The handle-facing tail of `Queue2STANConnector.Start`'s happy path
(lines 197–218): register the callback with the sync-point get options,
start the callback dispatcher, count a connect. -/
def queue2stanStartActs : List Act :=
  [.cbRegister queue2stanGetOptions, .ctlStart, .statsConnect]

/-- Body of `Queue2STANConnector.messageHandler` after the MQ-error check
(lines 241–267): trace, count bytes in, convert (a failure is only
notice-logged — the handler then falls through and still publishes),
publish to STAN; on publish failure notice-log and `Back()`, on success
`Cmit()` and update the out/latency statistics. -/
def queue2stanBody (conv : Except String (List ℕ)) (pubOk : Bool) : List Act :=
  [.traceLog, .statsIn] ++
    (match conv with
      | .error _ => [.noticeLog]
      | .ok _ => []) ++
    [.stanPublish] ++
    (if pubOk then [.cmit, .statsOut, .statsTime] else [.noticeLog, .back])

/-- `Queue2STANConnector.messageHandler` (lines 225–268): an MQ error with
non-OK completion code is either a trace-logged no-message timeout or is
escalated via `ConnectorError`; otherwise the body runs. -/
def queue2stanHandler (mqErr : Option MQReturn) (conv : Except String (List ℕ))
    (pubOk : Bool) : List Act :=
  match mqErr with
  | some e =>
    if e.MQCC ≠ MQCC_OK then
      if e.MQRC = MQRC_NO_MSG_AVAILABLE then [.traceLog] else [.connectorError]
    else queue2stanBody conv pubOk
  | none => queue2stanBody conv pubOk

/-- `NATS2QueueConnector.messageHandler` (nats2queue source lines
107–134): count bytes in, convert (the conversion error is immediately
shadowed by the `Put` error and never examined), put to the queue with
`MQPMO_NO_SYNCPOINT`; on put failure notice-log, on success update the
out/latency statistics.  No `Cmit`/`Back` on any path. -/
def nats2queueHandler (conv : Except String (List ℕ)) (putOk : Bool) : List Act :=
  [.statsIn, .put MQPMO_NO_SYNCPOINT] ++
    (if putOk then [.statsOut, .statsTime] else [.noticeLog])

/-- Handle-state of a `NATS2QueueConnector`: which of queue, queue manager
and NATS subscription are open, plus the disconnect counter of its stats. -/
structure N2QState where
  queue : Bool
  qMgr : Bool
  sub : Bool
  disconnects : ℕ
deriving DecidableEq

/-- `NATS2QueueConnector.Shutdown` (lines 137–165): count a disconnect,
notice-log, close the queue when open (keeping its error as the return
value), disconnect the queue manager when connected (error discarded,
trace-logged), unsubscribe when subscribed; every handle field is nilled.
`closeErr` is what `queue.Close(0)` would return. -/
def nats2queueShutdown (closeErr : Option String) (s : N2QState) :
    N2QState × Option String × List Act :=
  (⟨false, false, false, s.disconnects + 1⟩,
   if s.queue then closeErr else none,
   [Act.statsDisconnect, Act.noticeLog] ++
     (if s.queue then [Act.close] else []) ++
     (if s.qMgr then [Act.disc, Act.traceLog] else []) ++
     (if s.sub then [Act.unsubscribe] else []))

/-- Handle-state of a `Queue2NATSConnector`: the listener-shutdown
callback, queue and queue manager, plus the disconnect counter. -/
structure Q2NState where
  shutdownCB : Bool
  queue : Bool
  qMgr : Bool
  disconnects : ℕ
deriving DecidableEq

/-- `Queue2NATSConnector.Shutdown` (queue2nats source lines 63–97): count
a disconnect, notice-log, stop the listener when registered (error only
notice-logged), close the queue when open (error only notice-logged),
disconnect the queue manager when connected (error only notice-logged,
then trace-logged); always returns nil.  `cbErr`, `closeErr` and `discErr`
are what the three handle operations would return. -/
def queue2natsShutdown (cbErr closeErr discErr : Option String) (s : Q2NState) :
    Q2NState × Option String × List Act :=
  (⟨false, false, false, s.disconnects + 1⟩,
   none,
   [Act.statsDisconnect, Act.noticeLog] ++
     (if s.shutdownCB then
        [Act.ctlStop] ++ (if cbErr.isSome then [Act.noticeLog] else [])
      else []) ++
     (if s.queue then
        [Act.noticeLog, Act.close] ++ (if closeErr.isSome then [Act.noticeLog] else [])
      else []) ++
     (if s.qMgr then
        [Act.noticeLog, Act.disc] ++ (if discErr.isSome then [Act.noticeLog] else []) ++
          [Act.traceLog]
      else []))

/-- Iterate `nats2queueShutdown` over a list of close-results. -/
def iterN2QShutdown : List (Option String) → N2QState → N2QState
  | [], s => s
  | e :: rest, s => iterN2QShutdown rest (nats2queueShutdown e s).1

/-- Iterate `queue2natsShutdown` over a list of step-error triples. -/
def iterQ2NShutdown : List (Option String × Option String × Option String) → Q2NState → Q2NState
  | [], s => s
  | e :: rest, s => iterQ2NShutdown rest (queue2natsShutdown e.1 e.2.1 e.2.2 s).1

/-!
Part 3 — the bridge envelope codec (`message` package: `BridgeMessage`,
`Encode`, `DecodeBridgeMessage`).  The codec's source is not under `src/`
(only its tests are), so the definitions below are modelled from the
spec's §3/§4.1: a self-describing format with length-prefixed sections —
each property as key-length/key-bytes/type-tag/value, values fixed-width
for numerics and bool, length-prefixed for string/bytes, absent for null;
identifier fields exactly 24 bytes with shorter inputs zero-padded on
encode; string fields truncated to their declared width on encode and
trailing NULs/spaces trimmed on decode; decode fails on truncated input,
unknown type tag, duplicate key, or zero-length key.  Strings are
modelled as byte sequences; the `float32`/`float64` payloads are carried
as their IEEE bit patterns (the codec never interprets them); Go's
fixed-width integers are `Fin (2^w)`.
-/

deriving instance DecidableEq for Except

/-- Byte streams (each element a byte value). -/
abbrev Bytes := List ℕ

/-- Fixed-width little-endian base-256 encoding of `n` (`w` bytes). -/
def encNat : ℕ → ℕ → Bytes
  | 0, _ => []
  | w + 1, n => n % 256 :: encNat w (n / 256)

/-- Read a fixed-width little-endian number (`w` bytes). -/
def decNatW : ℕ → Bytes → Except String (ℕ × Bytes)
  | 0, s => .ok (0, s)
  | _ + 1, [] => .error "truncated"
  | w + 1, b :: s =>
    match decNatW w s with
    | .error e => .error e
    | .ok (m, r) => .ok (b + 256 * m, r)

/-- Fuelled base-128 varint encoder (low 7 bits per byte, high bit set on
continuation); fuel `n + 1` always suffices since the argument shrinks by
÷128 each step. -/
def encVarNatAux : ℕ → ℕ → Bytes
  | 0, _ => []
  | fuel + 1, n => if n < 128 then [n] else (128 + n % 128) :: encVarNatAux fuel (n / 128)

/-- Varint encoding of an unbounded length/count. -/
def encVarNat (n : ℕ) : Bytes := encVarNatAux (n + 1) n

/-- Varint decoder. -/
def decVarNat : Bytes → Except String (ℕ × Bytes)
  | [] => .error "truncated"
  | b :: s =>
    if b < 128 then .ok (b, s)
    else
      match decVarNat s with
      | .error e => .error e
      | .ok (m, r) => .ok ((b - 128) + 128 * m, r)

/-- Length-prefixed byte section. -/
def encLP (s : Bytes) : Bytes := encVarNat s.length ++ s

/-- Read a length-prefixed byte section. -/
def decLP (input : Bytes) : Except String (Bytes × Bytes) :=
  match decVarNat input with
  | .error e => .error e
  | .ok (n, r) =>
    if n ≤ r.length then .ok (r.take n, r.drop n) else .error "truncated"

/-- Read exactly `n` raw bytes. -/
def readN (n : ℕ) (s : Bytes) : Except String (Bytes × Bytes) :=
  if n ≤ s.length then .ok (s.take n, s.drop n) else .error "truncated"

/-- Read `w` bytes as a fixed-width integer, range-checked into `Fin m`. -/
def decFin (w m : ℕ) (s : Bytes) : Except String (Fin m × Bytes) :=
  match decNatW w s with
  | .error e => .error e
  | .ok (n, r) => if h : n < m then .ok (⟨n, h⟩, r) else .error "value out of range"

/-- Trim trailing NUL (0) and space (32) bytes, per the MQ string
convention the spec prescribes for decode. -/
def trimTrail (s : Bytes) : Bytes :=
  (s.reverse.dropWhile (fun b => b = 0 || b = 32)).reverse

/-- Encode a header string field of declared width `w`: truncated to `w`
and length-prefixed. -/
def encHdrString (w : ℕ) (s : Bytes) : Bytes := encLP (s.take w)

/-- Decode a header string field: length-prefixed bytes with trailing
NULs/spaces trimmed. -/
def decHdrString (input : Bytes) : Except String (Bytes × Bytes) :=
  match decLP input with
  | .error e => .error e
  | .ok (t, r) => .ok (trimTrail t, r)

/-- Encode a 24-byte identifier field: zero-padded (and truncated) to
exactly 24 bytes. -/
def encId (s : Bytes) : Bytes := (s ++ List.replicate 24 0).take 24

/-- Decode a 24-byte identifier field. -/
def decId (s : Bytes) : Except String (Bytes × Bytes) := readN 24 s

/-- Modelled from the spec: the typed property value over the exactly 10
supported alternatives (§3), with Go's fixed-width integers as `Fin` and
floats as IEEE bit patterns. -/
inductive PropValue
  | pnull
  | pbool (b : Bool)
  | pint8 (v : Fin (2 ^ 8))
  | pint16 (v : Fin (2 ^ 16))
  | pint32 (v : Fin (2 ^ 32))
  | pint64 (v : Fin (2 ^ 64))
  | pfloat32 (bits : Fin (2 ^ 32))
  | pfloat64 (bits : Fin (2 ^ 64))
  | pstring (s : Bytes)
  | pbytes (b : Bytes)
deriving DecidableEq

/-- The codec's type-tag byte — the discriminator of the 10 variants. -/
def propTag : PropValue → ℕ
  | .pnull => 0
  | .pbool _ => 1
  | .pint8 _ => 2
  | .pint16 _ => 3
  | .pint32 _ => 4
  | .pint64 _ => 5
  | .pfloat32 _ => 6
  | .pfloat64 _ => 7
  | .pstring _ => 8
  | .pbytes _ => 9

/-- Property value payload: fixed-width for numerics and bool,
length-prefixed for string/bytes, absent for null (§4.1). -/
def encPropValue : PropValue → Bytes
  | .pnull => []
  | .pbool b => [if b then 1 else 0]
  | .pint8 v => encNat 1 v.val
  | .pint16 v => encNat 2 v.val
  | .pint32 v => encNat 4 v.val
  | .pint64 v => encNat 8 v.val
  | .pfloat32 v => encNat 4 v.val
  | .pfloat64 v => encNat 8 v.val
  | .pstring s => encLP s
  | .pbytes s => encLP s

/-- Decode a property value from its type tag; an unrecognised tag is a
decode error (§4.1). -/
def decPropValue (tag : ℕ) (s : Bytes) : Except String (PropValue × Bytes) :=
  if tag = 0 then .ok (.pnull, s)
  else if tag = 1 then
    match s with
    | [] => .error "truncated"
    | b :: r => .ok (.pbool (if b = 0 then false else true), r)
  else if tag = 2 then
    match decFin 1 (2 ^ 8) s with
    | .error e => .error e
    | .ok (v, r) => .ok (.pint8 v, r)
  else if tag = 3 then
    match decFin 2 (2 ^ 16) s with
    | .error e => .error e
    | .ok (v, r) => .ok (.pint16 v, r)
  else if tag = 4 then
    match decFin 4 (2 ^ 32) s with
    | .error e => .error e
    | .ok (v, r) => .ok (.pint32 v, r)
  else if tag = 5 then
    match decFin 8 (2 ^ 64) s with
    | .error e => .error e
    | .ok (v, r) => .ok (.pint64 v, r)
  else if tag = 6 then
    match decFin 4 (2 ^ 32) s with
    | .error e => .error e
    | .ok (v, r) => .ok (.pfloat32 v, r)
  else if tag = 7 then
    match decFin 8 (2 ^ 64) s with
    | .error e => .error e
    | .ok (v, r) => .ok (.pfloat64 v, r)
  else if tag = 8 then
    match decLP s with
    | .error e => .error e
    | .ok (v, r) => .ok (.pstring v, r)
  else if tag = 9 then
    match decLP s with
    | .error e => .error e
    | .ok (v, r) => .ok (.pbytes v, r)
  else .error "unknown property type tag"

/-- One property: key-length, key bytes, type tag, value (§4.1). -/
def encProp (p : Bytes × PropValue) : Bytes :=
  encLP p.1 ++ (propTag p.2 :: encPropValue p.2)

/-- Concatenated property records. -/
def encPropList : List (Bytes × PropValue) → Bytes
  | [] => []
  | p :: rest => encProp p ++ encPropList rest

/-- Decode one property; a zero-length key is a decode error (§4.1). -/
def decProp (s : Bytes) : Except String (Bytes × PropValue × Bytes) :=
  match decLP s with
  | .error e => .error e
  | .ok (k, r1) =>
    if k = [] then .error "property key length zero"
    else
      match r1 with
      | [] => .error "truncated"
      | t :: r2 =>
        match decPropValue t r2 with
        | .error e => .error e
        | .ok (v, r3) => .ok (k, v, r3)

/-- Decode `n` consecutive property records. -/
def decProps : ℕ → Bytes → Except String (List (Bytes × PropValue) × Bytes)
  | 0, s => .ok ([], s)
  | n + 1, s =>
    match decProp s with
    | .error e => .error e
    | .ok (k, v, r1) =>
      match decProps n r1 with
      | .error e => .error e
      | .ok (ps, r2) => .ok ((k, v) :: ps, r2)

/-- Membership test on key lists (executable). -/
def bytesElem (k : Bytes) : List Bytes → Bool
  | [] => false
  | k2 :: rest => (k == k2) || bytesElem k rest

/-- Pairwise-distinct key check; a duplicate key is a decode error (§4.1). -/
def keysNodup : List Bytes → Bool
  | [] => true
  | k :: rest => (!bytesElem k rest) && keysNodup rest

/-- Modelled from the spec: the bridge header, a structural mirror of the
MQMD (§3) — fixed-width integers, fixed-width strings, four 24-byte
identifiers. -/
structure BridgeHeader where
  Version : Fin (2 ^ 32)
  Report : Fin (2 ^ 32)
  MsgType : Fin (2 ^ 32)
  Expiry : Fin (2 ^ 32)
  Feedback : Fin (2 ^ 32)
  Encoding : Fin (2 ^ 32)
  CodedCharSetID : Fin (2 ^ 32)
  Format : Bytes
  Priority : Fin (2 ^ 32)
  Persistence : Fin (2 ^ 32)
  MsgID : Bytes
  CorrelID : Bytes
  AccountingToken : Bytes
  GroupID : Bytes
  BackoutCount : Fin (2 ^ 32)
  ReplyToQ : Bytes
  ReplyToQMgr : Bytes
  UserIdentifier : Bytes
  ApplIdentityData : Bytes
  PutApplType : Fin (2 ^ 32)
  PutApplName : Bytes
  PutDate : Bytes
  PutTime : Bytes
  ApplOriginData : Bytes
  MsgSeqNumber : Fin (2 ^ 32)
  Offset : Fin (2 ^ 32)
  MsgFlags : Fin (2 ^ 32)
  OriginalLength : Fin (2 ^ 32)
deriving DecidableEq

/-- Modelled from the spec: a bridge message — header, typed properties,
body (§3). -/
structure BridgeMessage where
  Header : BridgeHeader
  Properties : List (Bytes × PropValue)
  Body : Bytes
deriving DecidableEq

/-- Header section: every field in §3's order. -/
def encHeader (h : BridgeHeader) : Bytes :=
  encNat 4 h.Version.val ++ encNat 4 h.Report.val ++ encNat 4 h.MsgType.val ++
  encNat 4 h.Expiry.val ++ encNat 4 h.Feedback.val ++ encNat 4 h.Encoding.val ++
  encNat 4 h.CodedCharSetID.val ++ encHdrString 8 h.Format ++ encNat 4 h.Priority.val ++
  encNat 4 h.Persistence.val ++ encId h.MsgID ++ encId h.CorrelID ++
  encId h.AccountingToken ++ encId h.GroupID ++ encNat 4 h.BackoutCount.val ++
  encHdrString 48 h.ReplyToQ ++ encHdrString 48 h.ReplyToQMgr ++
  encHdrString 12 h.UserIdentifier ++ encHdrString 32 h.ApplIdentityData ++
  encNat 4 h.PutApplType.val ++ encHdrString 28 h.PutApplName ++
  encHdrString 8 h.PutDate ++ encHdrString 8 h.PutTime ++
  encHdrString 4 h.ApplOriginData ++ encNat 4 h.MsgSeqNumber.val ++
  encNat 4 h.Offset.val ++ encNat 4 h.MsgFlags.val ++ encNat 4 h.OriginalLength.val

/-- Decode the header section. -/
def decHeader (s : Bytes) : Except String (BridgeHeader × Bytes) := do
  let (version, s) ← decFin 4 (2 ^ 32) s
  let (report, s) ← decFin 4 (2 ^ 32) s
  let (msgType, s) ← decFin 4 (2 ^ 32) s
  let (expiry, s) ← decFin 4 (2 ^ 32) s
  let (feedback, s) ← decFin 4 (2 ^ 32) s
  let (encoding, s) ← decFin 4 (2 ^ 32) s
  let (ccsid, s) ← decFin 4 (2 ^ 32) s
  let (format, s) ← decHdrString s
  let (priority, s) ← decFin 4 (2 ^ 32) s
  let (persistence, s) ← decFin 4 (2 ^ 32) s
  let (msgID, s) ← decId s
  let (correlID, s) ← decId s
  let (accountingToken, s) ← decId s
  let (groupID, s) ← decId s
  let (backoutCount, s) ← decFin 4 (2 ^ 32) s
  let (replyToQ, s) ← decHdrString s
  let (replyToQMgr, s) ← decHdrString s
  let (userIdentifier, s) ← decHdrString s
  let (applIdentityData, s) ← decHdrString s
  let (putApplType, s) ← decFin 4 (2 ^ 32) s
  let (putApplName, s) ← decHdrString s
  let (putDate, s) ← decHdrString s
  let (putTime, s) ← decHdrString s
  let (applOriginData, s) ← decHdrString s
  let (msgSeqNumber, s) ← decFin 4 (2 ^ 32) s
  let (offset, s) ← decFin 4 (2 ^ 32) s
  let (msgFlags, s) ← decFin 4 (2 ^ 32) s
  let (originalLength, s) ← decFin 4 (2 ^ 32) s
  return (⟨version, report, msgType, expiry, feedback, encoding, ccsid, format,
    priority, persistence, msgID, correlID, accountingToken, groupID, backoutCount,
    replyToQ, replyToQMgr, userIdentifier, applIdentityData, putApplType,
    putApplName, putDate, putTime, applOriginData, msgSeqNumber, offset,
    msgFlags, originalLength⟩, s)

/-- Modelled from the spec: `BridgeMessage.Encode` — header section,
property-count-prefixed property records, length-prefixed body (§4.1). -/
def BridgeMessage.Encode (m : BridgeMessage) : Bytes :=
  encHeader m.Header ++ encVarNat m.Properties.length ++
    encPropList m.Properties ++ encLP m.Body

/-- Modelled from the spec: `DecodeBridgeMessage` — decode the header,
the properties (rejecting duplicate keys) and the body; trailing bytes
are a framing error. -/
def DecodeBridgeMessage (s : Bytes) : Except String BridgeMessage := do
  let (header, s) ← decHeader s
  let (count, s) ← decVarNat s
  let (props, s) ← decProps count s
  if keysNodup (props.map Prod.fst) then
    let (body, s) ← decLP s
    if s = [] then
      return ⟨header, props, body⟩
    else
      .error "trailing bytes"
  else
    .error "duplicate property key"

/-- A header whose variable-width fields fit their declared widths: the
string fields are within width and free of trailing NULs/spaces (so
truncation and trimming are identities) and the identifier fields are
exactly 24 bytes (so zero-padding is the identity). -/
def ValidHeader (h : BridgeHeader) : Prop :=
  h.Format.length ≤ 8 ∧ trimTrail h.Format = h.Format ∧
  h.MsgID.length = 24 ∧ h.CorrelID.length = 24 ∧
  h.AccountingToken.length = 24 ∧ h.GroupID.length = 24 ∧
  h.ReplyToQ.length ≤ 48 ∧ trimTrail h.ReplyToQ = h.ReplyToQ ∧
  h.ReplyToQMgr.length ≤ 48 ∧ trimTrail h.ReplyToQMgr = h.ReplyToQMgr ∧
  h.UserIdentifier.length ≤ 12 ∧ trimTrail h.UserIdentifier = h.UserIdentifier ∧
  h.ApplIdentityData.length ≤ 32 ∧ trimTrail h.ApplIdentityData = h.ApplIdentityData ∧
  h.PutApplName.length ≤ 28 ∧ trimTrail h.PutApplName = h.PutApplName ∧
  h.PutDate.length ≤ 8 ∧ trimTrail h.PutDate = h.PutDate ∧
  h.PutTime.length ≤ 8 ∧ trimTrail h.PutTime = h.PutTime ∧
  h.ApplOriginData.length ≤ 4 ∧ trimTrail h.ApplOriginData = h.ApplOriginData

/-- A valid bridge message: valid header, nonempty pairwise-distinct
property keys, body of at most 64 KiB. -/
def ValidMessage (m : BridgeMessage) : Prop :=
  ValidHeader m.Header ∧
  (∀ p ∈ m.Properties, p.1 ≠ []) ∧
  keysNodup (m.Properties.map Prod.fst) = true ∧
  m.Body.length ≤ 65536

instance : DecidablePred ValidHeader := fun h => by
  unfold ValidHeader
  infer_instance

instance : DecidablePred ValidMessage := fun m => by
  unfold ValidMessage
  infer_instance

/-- A header that is valid except that `MsgID` is empty (shorter than the
fixed 24 bytes). -/
def c1CexHeader : BridgeHeader :=
  ⟨0, 0, 0, 0, 0, 0, 0, [], 0, 0, [], List.replicate 24 0, List.replicate 24 0,
    List.replicate 24 0, 0, [], [], [], [], 0, [], [], [], [], 0, 0, 0, 0⟩

/-- The C1 counterexample message: empty `MsgID`. -/
def c1CexMsg : BridgeMessage := ⟨c1CexHeader, [], []⟩

/-- A fully valid header for the C1 witness. -/
def c1WitnessHeader : BridgeHeader :=
  ⟨1, 2, 3, 4, 5, 6, 7, [77, 81, 83, 84, 82], 9, 1, List.replicate 24 7,
    List.replicate 24 8, List.replicate 24 9, List.replicate 24 10, 11,
    [81, 49], [81, 77, 49], [117, 115, 114], [97, 112, 112], 16,
    [110, 97, 109, 101], [50, 48, 50, 52, 48, 49, 48, 49],
    [49, 50, 51, 52, 53, 54, 55, 56], [111, 114, 105, 103], 21, 22, 23, 24⟩

/-- The C1 witness message: all 10 property types under distinct
nonempty keys, a valid header, a small body. -/
def c1WitnessMsg : BridgeMessage :=
  ⟨c1WitnessHeader,
    [([97], .pnull), ([98], .pbool true), ([99], .pint8 ⟨200, by norm_num⟩),
     ([100], .pint16 ⟨40000, by norm_num⟩), ([101], .pint32 ⟨70000, by norm_num⟩),
     ([102], .pint64 ⟨1099511627776, by norm_num⟩),
     ([103], .pfloat32 ⟨1078530011, by norm_num⟩),
     ([104], .pfloat64 ⟨4614256656552045848, by norm_num⟩),
     ([105], .pstring [104, 101, 108, 108, 111]), ([106], .pbytes [1, 2, 3, 4])],
    [104, 101, 108, 108, 111, 32, 119, 111, 114, 108, 100]⟩

/-!  Basic lemmas about the histogram pieces. -/

theorem binCountSum_nil : binCountSum [] = 0 := rfl

theorem binCountSum_cons (b : Bin) (l : List Bin) :
    binCountSum (b :: l) = b.Count + binCountSum l := by
  simp [binCountSum]

theorem binCountSum_append (l₁ l₂ : List Bin) :
    binCountSum (l₁ ++ l₂) = binCountSum l₁ + binCountSum l₂ := by
  simp [binCountSum]

theorem binCountSum_perm {l₁ l₂ : List Bin} (h : l₁.Perm l₂) :
    binCountSum l₁ = binCountSum l₂ :=
  (h.map Bin.Count).sum_eq

theorem binCountSum_pos {l : List Bin} (hne : l ≠ [])
    (hp : ∀ b ∈ l, 0 < b.Count) : 0 < binCountSum l := by
  induction l with
  | nil => exact absurd rfl hne
  | cons b rest ih =>
    rcases rest with _ | ⟨c, rest⟩
    · rw [binCountSum_cons, binCountSum_nil, add_zero]
      exact hp b (by simp)
    · have h1 := hp b (by simp)
      have h2 : 0 < binCountSum (c :: rest) :=
        ih (by simp) (fun x hx => hp x (by simp [hx]))
      rw [binCountSum_cons]; positivity

theorem binCountSum_eq_zero_iff_nil {l : List Bin}
    (hp : ∀ b ∈ l, 0 < b.Count) : binCountSum l = 0 ↔ l = [] := by
  constructor
  · intro h
    by_contra hne
    exact absurd h (ne_of_gt (binCountSum_pos hne hp))
  · rintro rfl; rfl

theorem addToBins_sum (l : List Bin) (n : ℚ) :
    binCountSum (addToBins l n) = binCountSum l + 1 := by
  induction l with
  | nil => simp [addToBins, binCountSum]
  | cons b rest ih =>
    by_cases h1 : b.Value = n
    · simp [addToBins, h1, binCountSum_cons]; ring
    · by_cases h2 : n < b.Value
      · simp [addToBins, h1, h2, binCountSum_cons]; ring
      · simp [addToBins, h1, h2, binCountSum_cons, ih]; ring

theorem addToBins_pos {l : List Bin} (n : ℚ)
    (hp : ∀ b ∈ l, 0 < b.Count) : ∀ b ∈ addToBins l n, 0 < b.Count := by
  induction l with
  | nil => intro b hb; simp [addToBins] at hb; simp [hb]
  | cons c rest ih =>
    intro b hb
    by_cases h1 : c.Value = n
    · simp [addToBins, h1] at hb
      rcases hb with hb | hb
      · have := hp c (by simp); simp [hb]; positivity
      · exact hp b (by simp [hb])
    · by_cases h2 : n < c.Value
      · simp [addToBins, h1, h2] at hb
        rcases hb with hb | hb | hb
        · simp [hb]
        · exact hp b (by simp [hb])
        · exact hp b (by simp [hb])
      · simp [addToBins, h1, h2] at hb
        rcases hb with hb | hb
        · exact hp b (by simp [hb])
        · exact ih (fun x hx => hp x (by simp [hx])) b hb

theorem addToBins_value_le {l : List Bin} {x : ℚ} (n : ℚ)
    (hl : ∀ b ∈ l, x ≤ b.Value) (hn : x ≤ n) :
    ∀ b ∈ addToBins l n, x ≤ b.Value := by
  induction l with
  | nil => intro b hb; simp [addToBins] at hb; simp [hb, hn]
  | cons c rest ih =>
    intro b hb
    by_cases h1 : c.Value = n
    · simp [addToBins, h1] at hb
      rcases hb with hb | hb
      · have := hl c (by simp)
        simp [hb]
        exact h1 ▸ this
      · exact hl b (by simp [hb])
    · by_cases h2 : n < c.Value
      · simp [addToBins, h1, h2] at hb
        rcases hb with hb | hb | hb
        · simp [hb, hn]
        · exact hl b (by simp [hb])
        · exact hl b (by simp [hb])
      · simp [addToBins, h1, h2] at hb
        rcases hb with hb | hb
        · exact hl b (by simp [hb])
        · exact ih (fun y hy => hl y (by simp [hy])) b hb

theorem insertBinSorted_perm (b : Bin) (l : List Bin) :
    (insertBinSorted b l).Perm (b :: l) := by
  induction l with
  | nil => simp [insertBinSorted]
  | cons c rest ih =>
    simp only [insertBinSorted]
    by_cases h : b.Value ≤ c.Value
    · rw [if_pos h]
    · rw [if_neg h]
      exact (ih.cons c).trans (List.Perm.swap b c rest)

theorem insertBinSorted_sorted {l : List Bin} (b : Bin)
    (hs : List.Pairwise (fun a b => a.Value ≤ b.Value) l) :
    List.Pairwise (fun a b => a.Value ≤ b.Value) (insertBinSorted b l) := by
  induction l with
  | nil => simpa [insertBinSorted] using List.pairwise_singleton _ _
  | cons c rest ih =>
    rw [List.pairwise_cons] at hs
    obtain ⟨hc, hrest⟩ := hs
    simp only [insertBinSorted]
    by_cases h : b.Value ≤ c.Value
    · rw [if_pos h, List.pairwise_cons]
      refine ⟨?_, List.pairwise_cons.mpr ⟨hc, hrest⟩⟩
      intro x hx
      rcases List.mem_cons.mp hx with hx | hx
      · rw [hx]; exact h
      · exact le_trans h (hc x hx)
    · rw [if_neg h, List.pairwise_cons]
      refine ⟨?_, ih hrest⟩
      intro x hx
      have hx' : x ∈ b :: rest := (insertBinSorted_perm b rest).mem_iff.mp hx
      rcases List.mem_cons.mp hx' with hx' | hx'
      · rw [hx']; exact le_of_lt (lt_of_not_le h)
      · exact hc x hx'

theorem sortBins_perm (l : List Bin) : (sortBins l).Perm l := by
  induction l with
  | nil => simp [sortBins]
  | cons b rest ih =>
    simp only [sortBins]
    exact (insertBinSorted_perm b (sortBins rest)).trans (ih.cons b)

theorem sortBins_sorted (l : List Bin) : sortedBins (sortBins l) := by
  induction l with
  | nil => simp [sortBins, sortedBins]
  | cons b rest ih =>
    simp only [sortBins]
    exact insertBinSorted_sorted b ih

theorem addToBins_sorted {l : List Bin} (n : ℚ) (hs : sortedBins l) :
    sortedBins (addToBins l n) := by
  induction l with
  | nil =>
    simp only [addToBins, sortedBins]
    exact List.pairwise_singleton _ _
  | cons c rest ih =>
    rw [sortedBins, List.pairwise_cons] at hs
    obtain ⟨hc, hrest⟩ := hs
    simp only [addToBins]
    by_cases h1 : c.Value = n
    · rw [if_pos h1, sortedBins, List.pairwise_cons]
      exact ⟨hc, hrest⟩
    · rw [if_neg h1]
      by_cases h2 : n < c.Value
      · rw [if_pos h2, sortedBins, List.pairwise_cons]
        constructor
        · intro b hb
          rcases List.mem_cons.mp hb with hb | hb
          · rw [hb]; exact le_of_lt h2
          · exact le_trans (le_of_lt h2) (hc b hb)
        · rw [List.pairwise_cons]
          exact ⟨hc, hrest⟩
      · rw [if_neg h2, sortedBins, List.pairwise_cons]
        constructor
        · exact addToBins_value_le n hc (le_of_not_lt h2)
        · exact ih hrest

theorem mergeBin_le {a b : Bin} {x : ℚ} (ha : 0 < a.Count) (hb : 0 < b.Count)
    (hxa : x ≤ a.Value) (hxb : x ≤ b.Value) : x ≤ (mergeBin a b).Value := by
  have hc : 0 < a.Count + b.Count := by linarith
  rw [mergeBin, le_div_iff hc]
  nlinarith

theorem mergeBin_ge {a b : Bin} {y : ℚ} (ha : 0 < a.Count) (hb : 0 < b.Count)
    (hya : a.Value ≤ y) (hyb : b.Value ≤ y) : (mergeBin a b).Value ≤ y := by
  have hc : 0 < a.Count + b.Count := by linarith
  rw [mergeBin, div_le_iff hc]
  nlinarith

theorem mergeAt_sum : ∀ (l : List Bin) (j : ℕ), binCountSum (mergeAt l j) = binCountSum l := by
  intro l j
  induction l, j using mergeAt.induct with
  | case1 a b rest => simp [mergeAt, mergeBin, binCountSum_cons]; ring
  | case2 a rest j ih => simp [mergeAt, binCountSum_cons, ih]
  | case3 l j h1 h2 => simp [mergeAt] at *

theorem mergeAt_pos : ∀ (l : List Bin) (j : ℕ), (∀ b ∈ l, 0 < b.Count) →
    ∀ b ∈ mergeAt l j, 0 < b.Count := by
  intro l j
  induction l, j using mergeAt.induct with
  | case1 a b rest =>
    intro hp x hx
    rcases List.mem_cons.mp hx with hx | hx
    · have ha := hp a (by simp)
      have hb := hp b (by simp)
      rw [hx, mergeBin]
      simp only
      linarith
    · exact hp x (by simp [hx])
  | case2 a rest j ih =>
    intro hp x hx
    rcases List.mem_cons.mp (by simpa [mergeAt] using hx) with hx | hx
    · exact hp x (by simp [hx])
    · exact ih (fun y hy => hp y (by simp [hy])) x hx
  | case3 l j h1 h2 =>
    intro hp x hx
    exact hp x (by simpa [mergeAt, h1, h2] using hx)

theorem mergeAt_value_le : ∀ (l : List Bin) (j : ℕ) (x : ℚ),
    (∀ b ∈ l, 0 < b.Count) → (∀ b ∈ l, x ≤ b.Value) →
    ∀ b ∈ mergeAt l j, x ≤ b.Value := by
  intro l j
  induction l, j using mergeAt.induct with
  | case1 a b rest =>
    intro x hp hv y hy
    rcases List.mem_cons.mp hy with hy | hy
    · rw [hy]
      exact mergeBin_le (hp a (by simp)) (hp b (by simp)) (hv a (by simp)) (hv b (by simp))
    · exact hv y (by simp [hy])
  | case2 a rest j ih =>
    intro x hp hv y hy
    rcases List.mem_cons.mp (by simpa [mergeAt] using hy) with hy | hy
    · exact hv y (by simp [hy])
    · exact ih x (fun z hz => hp z (by simp [hz])) (fun z hz => hv z (by simp [hz])) y hy
  | case3 l j h1 h2 =>
    intro x hp hv y hy
    exact hv y (by simpa [mergeAt, h1, h2] using hy)

theorem mergeAt_abs_le : ∀ (l : List Bin) (j : ℕ) (bound : ℚ),
    (∀ b ∈ l, 0 < b.Count) → (∀ b ∈ l, |b.Value| ≤ bound) →
    ∀ b ∈ mergeAt l j, |b.Value| ≤ bound := by
  intro l j
  induction l, j using mergeAt.induct with
  | case1 a b rest =>
    intro bound hp hv y hy
    rcases List.mem_cons.mp hy with hy | hy
    · have ha := abs_le.mp (hv a (by simp))
      have hb := abs_le.mp (hv b (by simp))
      rw [hy, abs_le]
      exact ⟨mergeBin_le (hp a (by simp)) (hp b (by simp)) ha.1 hb.1,
             mergeBin_ge (hp a (by simp)) (hp b (by simp)) ha.2 hb.2⟩
    · exact hv y (by simp [hy])
  | case2 a rest j ih =>
    intro bound hp hv y hy
    rcases List.mem_cons.mp (by simpa [mergeAt] using hy) with hy | hy
    · exact hv y (by simp [hy])
    · exact ih bound (fun z hz => hp z (by simp [hz])) (fun z hz => hv z (by simp [hz])) y hy
  | case3 l j h1 h2 =>
    intro bound hp hv y hy
    exact hv y (by simpa [mergeAt, h1, h2] using hy)

theorem mergeAt_sorted : ∀ (l : List Bin) (j : ℕ),
    sortedBins l → (∀ b ∈ l, 0 < b.Count) → sortedBins (mergeAt l j) := by
  intro l j
  induction l, j using mergeAt.induct with
  | case1 a b rest =>
    intro hs hp
    rw [sortedBins, List.pairwise_cons] at hs
    obtain ⟨ha, hs⟩ := hs
    rw [List.pairwise_cons] at hs
    obtain ⟨hb, hrest⟩ := hs
    rw [mergeAt, sortedBins, List.pairwise_cons]
    refine ⟨?_, hrest⟩
    intro x hx
    have hm : (mergeBin a b).Value ≤ b.Value :=
      mergeBin_ge (hp a (by simp)) (hp b (by simp)) (ha b (by simp)) le_rfl
    exact le_trans hm (hb x hx)
  | case2 a rest j ih =>
    intro hs hp
    rw [sortedBins, List.pairwise_cons] at hs
    obtain ⟨ha, hrest⟩ := hs
    rw [mergeAt, sortedBins, List.pairwise_cons]
    constructor
    · exact mergeAt_value_le rest (j + 1) a.Value
        (fun z hz => hp z (by simp [hz])) ha
    · exact ih hrest (fun z hz => hp z (by simp [hz]))
  | case3 l j h1 h2 =>
    intro hs hp
    simpa [mergeAt, h1, h2] using hs

theorem mergeAt_length : ∀ (l : List Bin) (j : ℕ), 1 ≤ j → j < l.length →
    (mergeAt l j).length + 1 = l.length := by
  intro l j
  induction l, j using mergeAt.induct with
  | case1 a b rest => intro _ _; simp [mergeAt]
  | case2 a rest j ih =>
    intro _ hj
    simp only [mergeAt, List.length_cons] at *
    have := ih (by omega) (by omega)
    omega
  | case3 l j h1 h2 =>
    intro hj1 hj2
    exfalso
    rcases l with _ | ⟨a, _ | ⟨b, rest⟩⟩
    · simp only [List.length_nil] at hj2; omega
    · simp only [List.length_cons, List.length_nil] at hj2; omega
    · rcases j with _ | _ | j
      · omega
      · exact h1 a b rest rfl rfl
      · exact h2 a (b :: rest) j rfl rfl

theorem pairDeltas_length : ∀ l : List Bin, (pairDeltas l).length = l.length - 1 := by
  intro l
  induction l using pairDeltas.induct with
  | case1 a b rest ih => simp [pairDeltas] at *; omega
  | case2 l h => rcases l with _ | ⟨a, _ | ⟨b, rest⟩⟩ <;> simp [pairDeltas] at *

theorem scanMin_cases : ∀ (ds : List ℚ) (minD : ℚ) (i best : ℕ),
    scanMin ds minD i best = best ∨
      (i ≤ scanMin ds minD i best ∧ scanMin ds minD i best < i + ds.length) := by
  intro ds
  induction ds with
  | nil => intro minD i best; left; rfl
  | cons d rest ih =>
    intro minD i best
    rw [scanMin]
    by_cases hd : d < minD
    · rw [if_pos hd]
      rcases ih d (i + 1) i with h | h
      · right; rw [h]; simp
      · right; exact ⟨by omega, by simp only [List.length_cons]; omega⟩
    · rw [if_neg hd]
      rcases ih minD (i + 1) best with h | h
      · left; exact h
      · right; exact ⟨by omega, by simp only [List.length_cons]; omega⟩

theorem minDeltaIndex_bounds (a b : Bin) (rest : List Bin)
    (hd : b.Value - a.Value < trimSentinel) :
    1 ≤ minDeltaIndex (a :: b :: rest) ∧
      minDeltaIndex (a :: b :: rest) < (a :: b :: rest).length := by
  have hpd : pairDeltas (a :: b :: rest) = (b.Value - a.Value) :: pairDeltas (b :: rest) := rfl
  have hlen : (pairDeltas (b :: rest)).length = rest.length := by
    rw [pairDeltas_length]; simp
  rw [minDeltaIndex, hpd, scanMin, if_pos hd]
  rcases scanMin_cases (pairDeltas (b :: rest)) (b.Value - a.Value) (1 + 1) 1 with h | h
  · rw [h]; simp
  · rw [hlen] at h
    simp only [List.length_cons]
    omega

theorem trimAux_total : ∀ (fuel : ℕ) (h : Histogram), (trimAux fuel h).Total = h.Total := by
  intro fuel
  induction fuel with
  | zero => intro h; rfl
  | succ n ih =>
    intro h
    rw [trimAux]
    split
    · split
      · rw [ih]
      · rfl
    · rfl

theorem trimAux_maxBins : ∀ (fuel : ℕ) (h : Histogram),
    (trimAux fuel h).MaxBins = h.MaxBins := by
  intro fuel
  induction fuel with
  | zero => intro h; rfl
  | succ n ih =>
    intro h
    rw [trimAux]
    split
    · split
      · rw [ih]
      · rfl
    · rfl

theorem trimAux_sum : ∀ (fuel : ℕ) (h : Histogram),
    binCountSum (trimAux fuel h).Bins = binCountSum h.Bins := by
  intro fuel
  induction fuel with
  | zero => intro h; rfl
  | succ n ih =>
    intro h
    rw [trimAux]
    split
    · split
      · rw [ih]
        exact mergeAt_sum h.Bins (minDeltaIndex h.Bins)
      · rfl
    · rfl

theorem trimAux_pos : ∀ (fuel : ℕ) (h : Histogram),
    (∀ b ∈ h.Bins, 0 < b.Count) → ∀ b ∈ (trimAux fuel h).Bins, 0 < b.Count := by
  intro fuel
  induction fuel with
  | zero => intro h hp; exact hp
  | succ n ih =>
    intro h hp
    rw [trimAux]
    split
    · split
      · exact ih _ (mergeAt_pos h.Bins (minDeltaIndex h.Bins) hp)
      · exact hp
    · exact hp

theorem trimAux_sorted : ∀ (fuel : ℕ) (h : Histogram),
    sortedBins h.Bins → (∀ b ∈ h.Bins, 0 < b.Count) →
    sortedBins (trimAux fuel h).Bins := by
  intro fuel
  induction fuel with
  | zero => intro h hs _; exact hs
  | succ n ih =>
    intro h hs hp
    rw [trimAux]
    split
    · split
      · exact ih _ (mergeAt_sorted h.Bins (minDeltaIndex h.Bins) hs hp)
          (mergeAt_pos h.Bins (minDeltaIndex h.Bins) hp)
      · exact hs
    · exact hs

theorem trimAux_abs : ∀ (fuel : ℕ) (h : Histogram) (bound : ℚ),
    (∀ b ∈ h.Bins, 0 < b.Count) → (∀ b ∈ h.Bins, |b.Value| ≤ bound) →
    ∀ b ∈ (trimAux fuel h).Bins, |b.Value| ≤ bound := by
  intro fuel
  induction fuel with
  | zero => intro h bound _ hv; exact hv
  | succ n ih =>
    intro h bound hp hv
    rw [trimAux]
    split
    · split
      · exact ih _ bound (mergeAt_pos h.Bins (minDeltaIndex h.Bins) hp)
          (mergeAt_abs_le h.Bins (minDeltaIndex h.Bins) bound hp hv)
      · exact hv
    · exact hv

theorem twice_histBound_lt_sentinel : 2 * histBound < trimSentinel := by
  rw [histBound, trimSentinel]
  norm_num

theorem trimAux_len : ∀ (fuel : ℕ) (h : Histogram),
    1 ≤ h.MaxBins → (∀ b ∈ h.Bins, 0 < b.Count) →
    (∀ b ∈ h.Bins, |b.Value| ≤ histBound) →
    h.Bins.length ≤ h.MaxBins + fuel →
    (trimAux fuel h).Bins.length ≤ h.MaxBins := by
  intro fuel
  induction fuel with
  | zero => intro h _ _ _ hlen; simpa [trimAux] using hlen
  | succ n ih =>
    intro h hmax hp hv hlen
    rw [trimAux]
    by_cases hgt : h.MaxBins < h.Bins.length
    · rw [if_pos hgt]
      obtain ⟨a, b, rest, hbins⟩ : ∃ a b rest, h.Bins = a :: b :: rest := by
        rcases hb : h.Bins with _ | ⟨a, _ | ⟨b, rest⟩⟩
        · rw [hb] at hgt; simp at hgt
        · rw [hb] at hgt; simp only [List.length_cons, List.length_nil] at hgt; omega
        · exact ⟨a, b, rest, rfl⟩
      have hdelta : b.Value - a.Value < trimSentinel := by
        have ha := abs_le.mp (hv a (by rw [hbins]; simp))
        have hb2 := abs_le.mp (hv b (by rw [hbins]; simp))
        have := twice_histBound_lt_sentinel
        linarith
      have hbounds := minDeltaIndex_bounds a b rest hdelta
      rw [← hbins] at hbounds
      rw [if_pos hbounds]
      have hlen' : (mergeAt h.Bins (minDeltaIndex h.Bins)).length + 1 = h.Bins.length :=
        mergeAt_length h.Bins (minDeltaIndex h.Bins) hbounds.1 hbounds.2
      have := ih { h with Bins := mergeAt h.Bins (minDeltaIndex h.Bins) }
        hmax (mergeAt_pos h.Bins (minDeltaIndex h.Bins) hp)
        (mergeAt_abs_le h.Bins (minDeltaIndex h.Bins) histBound hp hv)
        (by simp only; omega)
      simpa using this
    · rw [if_neg hgt]
      omega

theorem trim_total (h : Histogram) : h.trim.Total = h.Total := trimAux_total _ _

theorem trim_maxBins (h : Histogram) : h.trim.MaxBins = h.MaxBins := trimAux_maxBins _ _

theorem trim_sum (h : Histogram) : binCountSum h.trim.Bins = binCountSum h.Bins :=
  trimAux_sum _ _

theorem trim_pos {h : Histogram} (hp : ∀ b ∈ h.Bins, 0 < b.Count) :
    ∀ b ∈ h.trim.Bins, 0 < b.Count := trimAux_pos _ _ hp

theorem trim_sorted {h : Histogram} (hs : sortedBins h.Bins)
    (hp : ∀ b ∈ h.Bins, 0 < b.Count) : sortedBins h.trim.Bins :=
  trimAux_sorted _ _ hs hp

theorem trim_abs {h : Histogram} {bound : ℚ} (hp : ∀ b ∈ h.Bins, 0 < b.Count)
    (hv : ∀ b ∈ h.Bins, |b.Value| ≤ bound) : ∀ b ∈ h.trim.Bins, |b.Value| ≤ bound :=
  trimAux_abs _ _ bound hp hv

theorem trim_len {h : Histogram} (hmax : 1 ≤ h.MaxBins)
    (hp : ∀ b ∈ h.Bins, 0 < b.Count) (hv : ∀ b ∈ h.Bins, |b.Value| ≤ histBound) :
    h.trim.Bins.length ≤ h.MaxBins :=
  trimAux_len _ _ hmax hp hv (by omega)

theorem addToBins_mem_value : ∀ (l : List Bin) (n : ℚ), ∀ b ∈ addToBins l n,
    b.Value = n ∨ ∃ c ∈ l, b.Value = c.Value := by
  intro l n
  induction l with
  | nil => intro b hb; simp [addToBins] at hb; simp [hb]
  | cons c rest ih =>
    intro b hb
    by_cases h1 : c.Value = n
    · simp [addToBins, h1] at hb
      rcases hb with hb | hb
      · left; rw [hb]
      · right; exact ⟨b, by simp [hb], rfl⟩
    · by_cases h2 : n < c.Value
      · simp [addToBins, h1, h2] at hb
        rcases hb with hb | hb | hb
        · left; rw [hb]
        · right; exact ⟨b, by simp [hb], rfl⟩
        · right; exact ⟨b, by simp [hb], rfl⟩
      · simp [addToBins, h1, h2] at hb
        rcases hb with hb | hb
        · right; exact ⟨b, by simp [hb], rfl⟩
        · rcases ih b hb with h | ⟨c2, hc2, he⟩
          · left; exact h
          · right; exact ⟨c2, by simp [hc2], he⟩

theorem addToBins_abs {l : List Bin} {bound n : ℚ}
    (hv : ∀ b ∈ l, |b.Value| ≤ bound) (hn : |n| ≤ bound) :
    ∀ b ∈ addToBins l n, |b.Value| ≤ bound := by
  intro b hb
  rcases addToBins_mem_value l n b hb with h | ⟨c, hc, he⟩
  · rw [h]; exact hn
  · rw [he]; exact hv c hc

theorem Add_total (h : Histogram) (v : ℚ) : (h.Add v).Total = h.Total + 1 := by
  rw [Histogram.Add, trim_total]

theorem Add_maxBins (h : Histogram) (v : ℚ) : (h.Add v).MaxBins = h.MaxBins := by
  rw [Histogram.Add, trim_maxBins]

theorem Add_sum (h : Histogram) (v : ℚ) :
    binCountSum (h.Add v).Bins = binCountSum h.Bins + 1 := by
  rw [Histogram.Add, trim_sum]
  exact addToBins_sum h.Bins v

theorem Add_pos {h : Histogram} (v : ℚ) (hp : ∀ b ∈ h.Bins, 0 < b.Count) :
    ∀ b ∈ (h.Add v).Bins, 0 < b.Count := by
  rw [Histogram.Add]
  exact trim_pos (addToBins_pos v hp)

theorem Add_sorted {h : Histogram} (v : ℚ) (hs : sortedBins h.Bins)
    (hp : ∀ b ∈ h.Bins, 0 < b.Count) : sortedBins (h.Add v).Bins := by
  rw [Histogram.Add]
  exact trim_sorted (addToBins_sorted v hs) (addToBins_pos v hp)

theorem Add_abs {h : Histogram} {v : ℚ} (hp : ∀ b ∈ h.Bins, 0 < b.Count)
    (hv : ∀ b ∈ h.Bins, |b.Value| ≤ histBound) (hb : |v| ≤ histBound) :
    ∀ b ∈ (h.Add v).Bins, |b.Value| ≤ histBound := by
  rw [Histogram.Add]
  exact trim_abs (addToBins_pos v hp) (addToBins_abs hv hb)

theorem Add_len {h : Histogram} {v : ℚ} (hmax : 1 ≤ h.MaxBins)
    (hp : ∀ b ∈ h.Bins, 0 < b.Count) (hv : ∀ b ∈ h.Bins, |b.Value| ≤ histBound)
    (hb : |v| ≤ histBound) : (h.Add v).Bins.length ≤ h.MaxBins := by
  rw [Histogram.Add]
  exact trim_len hmax (addToBins_pos v hp) (addToBins_abs hv hb)

theorem MergeWith_total (h other : Histogram) :
    (h.MergeWith other).Total = h.Total + other.Total := by
  rw [Histogram.MergeWith, trim_total]

theorem MergeWith_maxBins (h other : Histogram) :
    (h.MergeWith other).MaxBins = h.MaxBins := by
  rw [Histogram.MergeWith, trim_maxBins]

theorem MergeWith_sum (h other : Histogram) :
    binCountSum (h.MergeWith other).Bins = binCountSum h.Bins + binCountSum other.Bins := by
  rw [Histogram.MergeWith, trim_sum]
  rw [binCountSum_perm (sortBins_perm _)]
  exact binCountSum_append _ _

theorem MergeWith_pos {h other : Histogram} (hp : ∀ b ∈ h.Bins, 0 < b.Count)
    (hq : ∀ b ∈ other.Bins, 0 < b.Count) :
    ∀ b ∈ (h.MergeWith other).Bins, 0 < b.Count := by
  rw [Histogram.MergeWith]
  apply trim_pos
  intro b hb
  have : b ∈ h.Bins ++ other.Bins := (sortBins_perm _).subset hb
  rcases List.mem_append.mp this with hb' | hb'
  · exact hp b hb'
  · exact hq b hb'

theorem MergeWith_sorted {h other : Histogram} (hp : ∀ b ∈ h.Bins, 0 < b.Count)
    (hq : ∀ b ∈ other.Bins, 0 < b.Count) : sortedBins (h.MergeWith other).Bins := by
  rw [Histogram.MergeWith]
  apply trim_sorted (sortBins_sorted _)
  intro b hb
  have : b ∈ h.Bins ++ other.Bins := (sortBins_perm _).subset hb
  rcases List.mem_append.mp this with hb' | hb'
  · exact hp b hb'
  · exact hq b hb'

theorem MergeWith_abs {h other : Histogram} (hp : ∀ b ∈ h.Bins, 0 < b.Count)
    (hq : ∀ b ∈ other.Bins, 0 < b.Count)
    (hv : ∀ b ∈ h.Bins, |b.Value| ≤ histBound)
    (hw : ∀ b ∈ other.Bins, |b.Value| ≤ histBound) :
    ∀ b ∈ (h.MergeWith other).Bins, |b.Value| ≤ histBound := by
  rw [Histogram.MergeWith]
  apply trim_abs
  · intro b hb
    rcases List.mem_append.mp ((sortBins_perm _).subset hb) with hb' | hb'
    · exact hp b hb'
    · exact hq b hb'
  · intro b hb
    rcases List.mem_append.mp ((sortBins_perm _).subset hb) with hb' | hb'
    · exact hv b hb'
    · exact hw b hb'

theorem MergeWith_len {h other : Histogram} (hmax : 1 ≤ h.MaxBins)
    (hp : ∀ b ∈ h.Bins, 0 < b.Count) (hq : ∀ b ∈ other.Bins, 0 < b.Count)
    (hv : ∀ b ∈ h.Bins, |b.Value| ≤ histBound)
    (hw : ∀ b ∈ other.Bins, |b.Value| ≤ histBound) :
    (h.MergeWith other).Bins.length ≤ h.MaxBins := by
  rw [Histogram.MergeWith]
  have hp2 : ∀ b ∈ sortBins (h.Bins ++ other.Bins), 0 < b.Count := by
    intro b hb
    rcases List.mem_append.mp ((sortBins_perm _).subset hb) with hb' | hb'
    · exact hp b hb'
    · exact hq b hb'
  have hv2 : ∀ b ∈ sortBins (h.Bins ++ other.Bins), |b.Value| ≤ histBound := by
    intro b hb
    rcases List.mem_append.mp ((sortBins_perm _).subset hb) with hb' | hb'
    · exact hv b hb'
    · exact hw b hb'
  exact trim_len hmax hp2 hv2

theorem Scale_total (h : Histogram) (s : ℚ) : (h.Scale s).Total = h.Total := rfl

theorem Scale_sum (h : Histogram) (s : ℚ) :
    binCountSum (h.Scale s).Bins = binCountSum h.Bins := by
  rw [Histogram.Scale]
  simp only [binCountSum, List.map_map]
  have hfun : (Bin.Count ∘ fun b => ({ Value := b.Value * s, Count := b.Count } : Bin)) =
      Bin.Count := rfl
  rw [hfun]

theorem Scale_pos {h : Histogram} (s : ℚ) (hp : ∀ b ∈ h.Bins, 0 < b.Count) :
    ∀ b ∈ (h.Scale s).Bins, 0 < b.Count := by
  rw [Histogram.Scale]
  intro b hb
  simp only [List.mem_map] at hb
  obtain ⟨c, hc, rfl⟩ := hb
  exact hp c hc

theorem Scale_sorted {h : Histogram} {s : ℚ} (hs : sortedBins h.Bins) (hnn : 0 ≤ s) :
    sortedBins (h.Scale s).Bins := by
  rw [Histogram.Scale]
  exact List.Pairwise.map _ (fun a b hab => mul_le_mul_of_nonneg_right hab hnn) hs

theorem reachAny_inv {h : Histogram} (hr : ReachAny h) :
    (∀ b ∈ h.Bins, 0 < b.Count) ∧ binCountSum h.Bins = (h.Total : ℚ) := by
  induction hr with
  | new n hn => exact ⟨by simp [NewHistogram], by simp [NewHistogram, binCountSum]⟩
  | add h v _ ih =>
    refine ⟨Add_pos v ih.1, ?_⟩
    rw [Add_sum, Add_total, ih.2]
    push_cast
    ring
  | merge h other _ _ ih₁ ih₂ =>
    refine ⟨MergeWith_pos ih₁.1 ih₂.1, ?_⟩
    rw [MergeWith_sum, MergeWith_total, ih₁.2, ih₂.2]
    push_cast
    ring
  | scale h s _ ih =>
    refine ⟨Scale_pos s ih.1, ?_⟩
    rw [Scale_sum, Scale_total, ih.2]

theorem reachBounded_inv {h : Histogram} (hr : ReachBounded h) :
    1 ≤ h.MaxBins ∧ sortedBins h.Bins ∧ (∀ b ∈ h.Bins, 0 < b.Count) ∧
      (∀ b ∈ h.Bins, |b.Value| ≤ histBound) ∧ h.Bins.length ≤ h.MaxBins := by
  induction hr with
  | new n hn =>
    refine ⟨hn, ?_, ?_, ?_, ?_⟩ <;> simp [NewHistogram, sortedBins]
  | add h v _ hv ih =>
    obtain ⟨hmax, hs, hp, hb, _⟩ := ih
    refine ⟨by rw [Add_maxBins]; exact hmax, Add_sorted v hs hp, Add_pos v hp,
      Add_abs hp hb hv, ?_⟩
    rw [Add_maxBins]
    exact Add_len hmax hp hb hv
  | merge h other _ _ ih₁ ih₂ =>
    obtain ⟨hmax, _, hp, hb, _⟩ := ih₁
    obtain ⟨_, _, hq, hw, _⟩ := ih₂
    refine ⟨by rw [MergeWith_maxBins]; exact hmax, MergeWith_sorted hp hq,
      MergeWith_pos hp hq, MergeWith_abs hp hq hb hw, ?_⟩
    rw [MergeWith_maxBins]
    exact MergeWith_len hmax hp hq hb hw

theorem quantLoop_eq_firstAtLeast : ∀ (l : List Bin) (acc target : ℚ),
    quantLoop l (target - acc) = (firstAtLeast l acc target).getD (-1) := by
  intro l
  induction l with
  | nil => intro acc target; rfl
  | cons b rest ih =>
    intro acc target
    rw [quantLoop, firstAtLeast]
    by_cases hc : target ≤ acc + b.Count
    · rw [if_pos (by linarith), if_pos hc]
      rfl
    · rw [if_neg (by intro hcon; exact hc (by linarith)), if_neg hc]
      have : target - acc - b.Count = target - (acc + b.Count) := by ring
      rw [this]
      exact ih (acc + b.Count) target

theorem Quantile_eq_quantileSpec (h : Histogram) (q : ℚ) :
    h.Quantile q = quantileSpec h q := by
  rw [Histogram.Quantile, quantileSpec]
  have := quantLoop_eq_firstAtLeast h.Bins 0 (q * (h.Total : ℚ))
  rw [sub_zero] at this
  exact this

theorem quantLoop_mem : ∀ (l : List Bin) (t : ℚ), l ≠ [] → t ≤ binCountSum l →
    ∃ b ∈ l, quantLoop l t = b.Value := by
  intro l
  induction l with
  | nil => intro t hne _; exact absurd rfl hne
  | cons b rest ih =>
    intro t _ hle
    rw [quantLoop]
    by_cases hc : t - b.Count ≤ 0
    · rw [if_pos hc]
      exact ⟨b, by simp, rfl⟩
    · rw [if_neg hc]
      rcases rest with _ | ⟨c, rest'⟩
      · exfalso
        rw [binCountSum_cons, binCountSum_nil] at hle
        exact hc (by linarith)
      · rw [binCountSum_cons] at hle
        obtain ⟨x, hx, he⟩ := ih (t - b.Count) (by simp) (by linarith)
        exact ⟨x, by simp [hx], he⟩

/-- C4, counterexample: at `q = 2` on a histogram holding one sample,
`Quantile` returns `-1` although the total count is 1, refuting
"returns -1 if and only if the total count is zero" as stated for every
quantile `q`. -/
theorem quantile_minus_one_counterexample :
    ((NewHistogram 10).Add 5).Quantile 2 = -1 ∧ ((NewHistogram 10).Add 5).Total ≠ 0 := by
  have h1 : (NewHistogram 10).Add 5 = ⟨[⟨5, 1⟩], 10, 1⟩ := by
    norm_num [NewHistogram, Histogram.Add, addToBins, Histogram.trim, trimAux]
  rw [h1]
  norm_num [Histogram.Quantile, quantLoop]

/-- C4 (amended): `Quantile(q)` accumulates bin counts in slice order
(ascending when the bins are sorted) and returns the value of the first
bin at which the cumulative count reaches or exceeds `q` times the total;
and when the bin counts are positive and sum to the total, `q ≤ 1`, and no
bin carries the value `-1`, it returns `-1` if and only if the total count
is zero. -/
theorem quantile_crossing_correct (h : Histogram) (q : ℚ) :
    h.Quantile q = quantileSpec h q ∧
    ((∀ b ∈ h.Bins, 0 < b.Count) → binCountSum h.Bins = (h.Total : ℚ) → q ≤ 1 →
      (∀ b ∈ h.Bins, b.Value ≠ -1) → (h.Quantile q = -1 ↔ h.Total = 0)) := by
  refine ⟨Quantile_eq_quantileSpec h q, ?_⟩
  intro hp hsum hq hv
  constructor
  · intro hneg
    by_contra hT
    have hT' : 0 < (h.Total : ℚ) := by
      have : 0 < h.Total := Nat.pos_of_ne_zero hT
      exact_mod_cast this
    have hne : h.Bins ≠ [] := by
      intro hnil
      rw [hnil, binCountSum_nil] at hsum
      linarith
    have hle : q * (h.Total : ℚ) ≤ binCountSum h.Bins := by
      rw [hsum]
      nlinarith
    obtain ⟨b, hb, he⟩ := quantLoop_mem h.Bins (q * (h.Total : ℚ)) hne hle
    rw [Histogram.Quantile] at hneg
    exact hv b hb (he.symm.trans hneg)
  · intro hT
    have hnil : h.Bins = [] := by
      apply (binCountSum_eq_zero_iff_nil hp).mp
      rw [hsum, hT]
      simp
    rw [Histogram.Quantile, hnil]
    rfl

/-- C4, witness: the amended theorem applied to the empty histogram at
`q = 1`. -/
theorem quantile_crossing_correct_witness :
    (NewHistogram 5).Quantile 1 = quantileSpec (NewHistogram 5) 1 ∧
    ((NewHistogram 5).Quantile 1 = -1 ↔ (NewHistogram 5).Total = 0) :=
  ⟨(quantile_crossing_correct (NewHistogram 5) 1).1,
   (quantile_crossing_correct (NewHistogram 5) 1).2
     (by simp [NewHistogram]) (by simp [NewHistogram, binCountSum]) le_rfl
     (by simp [NewHistogram])⟩

/-- C5, counterexample: `Scale(-1)` reverses the order of a sorted
two-bin histogram, refuting sortedness preservation "for any s". -/
theorem scale_negative_counterexample :
    sortedBins (⟨[⟨0, 1⟩, ⟨1, 1⟩], 10, 2⟩ : Histogram).Bins ∧
    ¬ sortedBins ((⟨[⟨0, 1⟩, ⟨1, 1⟩], 10, 2⟩ : Histogram).Scale (-1)).Bins := by
  constructor
  · rw [sortedBins]
    norm_num [List.pairwise_cons]
  · rw [Histogram.Scale]
    simp only [sortedBins, List.map_cons, List.map_nil, List.pairwise_cons]
    norm_num

/-- C5 (amended): on a histogram whose bins are sorted ascending by value
with positive counts, `Add(v)` preserves sortedness for any `v`,
`MergeWith(other)` preserves sortedness when `other` is likewise sorted
with positive counts, and `Scale(s)` preserves sortedness for `s ≥ 0`
(a negative `s` reverses the order). -/
theorem histogram_ops_preserve_sorted (h other : Histogram) (v s : ℚ)
    (hs : sortedBins h.Bins) (hp : ∀ b ∈ h.Bins, 0 < b.Count) :
    sortedBins (h.Add v).Bins ∧
    (sortedBins other.Bins → (∀ b ∈ other.Bins, 0 < b.Count) →
      sortedBins (h.MergeWith other).Bins) ∧
    (0 ≤ s → sortedBins (h.Scale s).Bins) :=
  ⟨Add_sorted v hs hp, fun _ hq => MergeWith_sorted hp hq, fun hnn => Scale_sorted hs hnn⟩

/-- C5, witness: the amended theorem applied to concrete histograms. -/
theorem histogram_ops_preserve_sorted_witness :
    sortedBins ((NewHistogram 3).Add 2).Bins ∧
    sortedBins ((NewHistogram 3).MergeWith (NewHistogram 4)).Bins ∧
    sortedBins ((NewHistogram 3).Scale 2).Bins := by
  have t := histogram_ops_preserve_sorted (NewHistogram 3) (NewHistogram 4) 2 2
    (by simp [NewHistogram, sortedBins]) (by simp [NewHistogram])
  exact ⟨t.1, t.2.1 (by simp [NewHistogram, sortedBins]) (by simp [NewHistogram]),
    t.2.2 (by norm_num)⟩

set_option maxRecDepth 8192 in
/-- C6, counterexample: with `MaxBins = 1`, adding `0` and then `1e200`
leaves two bins: every adjacent delta is at least the `1e99` sentinel, so
`trim`'s scan selects no merge pair (at this point the Go code would read
`Bins[-1]` and panic), and the bin count stays above `MaxBins`. -/
theorem trim_sentinel_counterexample :
    (((NewHistogram 1).Add 0).Add (10 ^ 200)).MaxBins = 1 ∧
      (((NewHistogram 1).Add 0).Add (10 ^ 200)).Bins.length = 2 := by
  have h1 : (NewHistogram 1).Add 0 = ⟨[⟨0, 1⟩], 1, 1⟩ := by
    norm_num [NewHistogram, Histogram.Add, addToBins, Histogram.trim, trimAux]
  have hns : ¬ ((10 : ℚ) ^ 200 - 0 < trimSentinel) := by
    rw [trimSentinel]
    norm_num
  have hpd : pairDeltas [⟨0, 1⟩, ⟨(10 : ℚ) ^ 200, 1⟩] = [(10 : ℚ) ^ 200 - 0] := rfl
  have hmdi : minDeltaIndex [⟨0, 1⟩, ⟨(10 : ℚ) ^ 200, 1⟩] = 0 := by
    rw [minDeltaIndex, hpd, scanMin, if_neg hns, scanMin]
  have h2 : ((NewHistogram 1).Add 0).Add (10 ^ 200) = ⟨[⟨0, 1⟩, ⟨10 ^ 200, 1⟩], 1, 2⟩ := by
    rw [h1, Histogram.Add]
    have ha : addToBins [⟨0, 1⟩] (10 ^ 200) = [⟨0, 1⟩, ⟨(10 : ℚ) ^ 200, 1⟩] := by
      norm_num [addToBins]
    simp only [ha, Histogram.trim, trimAux, hmdi]
    norm_num
  rw [h2]
  exact ⟨rfl, rfl⟩

/-- C6 (amended): for every histogram reachable from `NewHistogram n`
(`n ≥ 1`) by `Add` of values of magnitude at most `1e98` (so adjacent
deltas stay below the `1e99` sentinel that `trim`'s scan starts from) and
`MergeWith` of likewise-reachable histograms, the number of bins is at
most `MaxBins`, because `trim` repeatedly merges the two adjacent bins
with the smallest value-delta until the bound holds. -/
theorem bins_length_le_maxBins (h : Histogram) (hr : ReachBounded h) :
    h.Bins.length ≤ h.MaxBins :=
  (reachBounded_inv hr).2.2.2.2

/-- C6, witness: the amended theorem applied to
`NewHistogram 1 |> Add 0 |> Add 1`. -/
theorem bins_length_le_maxBins_witness :
    (((NewHistogram 1).Add 0).Add 1).Bins.length ≤ (((NewHistogram 1).Add 0).Add 1).MaxBins :=
  bins_length_le_maxBins _
    (ReachBounded.add _ _
      (ReachBounded.add _ _ (ReachBounded.new 1 le_rfl) (by rw [histBound]; norm_num))
      (by rw [histBound]; norm_num))

/-- C8: for every histogram reachable from `NewHistogram n` (`n ≥ 1`) by
`Add`, `MergeWith` (with another reachable histogram) and `Scale`, the sum
of the bin counts equals the `Total` field. -/
theorem bin_counts_sum_to_total (h : Histogram) (hr : ReachAny h) :
    binCountSum h.Bins = (h.Total : ℚ) :=
  (reachAny_inv hr).2

/-- C8, witness: the theorem applied to `NewHistogram 3 |> Add 1`. -/
theorem bin_counts_sum_to_total_witness :
    binCountSum ((NewHistogram 3).Add 1).Bins = (((NewHistogram 3).Add 1).Total : ℚ) :=
  bin_counts_sum_to_total _ (ReachAny.add _ _ (ReachAny.new 3 (by norm_num)))

/-- C9: on a reachable histogram whose total count is zero, `Mean` and
`Variance` return 0 (the zero-total case is guarded), while `CDF(x)`
divides by the zero total without a guard and yields NaN (`0/0`) for
every `x`. -/
theorem zero_total_behavior (h : Histogram) (hr : ReachAny h) (hT : h.Total = 0) :
    h.Mean = 0 ∧ h.Variance = 0 ∧ ∀ x : ℚ, h.CDF x = FVal.nan := by
  obtain ⟨hp, hsum⟩ := reachAny_inv hr
  have hnil : h.Bins = [] := by
    apply (binCountSum_eq_zero_iff_nil hp).mp
    rw [hsum, hT]
    simp
  refine ⟨by rw [Histogram.Mean, if_pos hT], by rw [Histogram.Variance, if_pos hT], ?_⟩
  intro x
  rw [Histogram.CDF, hnil]
  simp only [List.foldl]
  rw [fdiv, if_pos (by rw [hT]; simp), if_pos rfl]

/-- C9, witness: the theorem applied to `NewHistogram 2`. -/
theorem zero_total_behavior_witness :
    (NewHistogram 2).Mean = 0 ∧ (NewHistogram 2).Variance = 0 ∧
      (NewHistogram 2).CDF 5 = FVal.nan := by
  have t := zero_total_behavior (NewHistogram 2) (ReachAny.new 2 (by norm_num)) rfl
  exact ⟨t.1, t.2.1, t.2.2 5⟩

/-- C2: `Queue2STANConnector.Start` registers the MQ get callback with
sync-point get-message options, and in its message handler a successful
STAN publish is followed by `Cmit` (and no `Back`) while a failed publish
is followed by `Back` (and no `Cmit`); the NATS2Queue handler puts with
`MQPMO_NO_SYNCPOINT` and never commits or backs out. -/
theorem queue2stan_syncpoint_commit_back :
    (Act.cbRegister queue2stanGetOptions ∈ queue2stanStartActs ∧
      queue2stanGetOptions &&& MQGMO_SYNCPOINT ≠ 0) ∧
    (∀ conv : Except String (List ℕ),
      List.Sublist [Act.stanPublish, Act.cmit] (queue2stanHandler none conv true) ∧
      Act.back ∉ queue2stanHandler none conv true ∧
      List.Sublist [Act.stanPublish, Act.back] (queue2stanHandler none conv false) ∧
      Act.cmit ∉ queue2stanHandler none conv false) ∧
    (∀ (conv : Except String (List ℕ)) (putOk : Bool),
      Act.put MQPMO_NO_SYNCPOINT ∈ nats2queueHandler conv putOk ∧
      Act.cmit ∉ nats2queueHandler conv putOk ∧
      Act.back ∉ nats2queueHandler conv putOk ∧
      Act.stanPublish ∉ nats2queueHandler conv putOk) := by
  refine ⟨by decide, ?_, ?_⟩
  · intro conv
    cases conv <;> simp only [queue2stanHandler, queue2stanBody, List.append_assoc,
      List.cons_append, List.nil_append] <;> refine ⟨by decide, by decide, by decide, by decide⟩
  · intro conv putOk
    cases putOk <;>
      simp only [nats2queueHandler, List.append_assoc, List.cons_append, List.nil_append] <;>
      refine ⟨by decide, by decide, by decide, by decide⟩

/-- C2, witness: the theorem applied at concrete handler environments. -/
theorem queue2stan_syncpoint_commit_back_witness :
    List.Sublist [Act.stanPublish, Act.cmit] (queue2stanHandler none (Except.ok []) true) ∧
    List.Sublist [Act.stanPublish, Act.back] (queue2stanHandler none (Except.ok []) false) ∧
    Act.put MQPMO_NO_SYNCPOINT ∈ nats2queueHandler (Except.ok []) true :=
  ⟨(queue2stan_syncpoint_commit_back.2.1 (Except.ok [])).1,
   (queue2stan_syncpoint_commit_back.2.1 (Except.ok [])).2.2.1,
   (queue2stan_syncpoint_commit_back.2.2 (Except.ok []) true).1⟩

/-- C3, counterexample: in the Queue2STAN handler a failed conversion is
notice-logged but the handler does not return — the (nil) message is still
published to STAN, refuting "a message whose conversion failed is not
forwarded to the output side". -/
theorem convert_error_still_published_counterexample :
    Act.noticeLog ∈ queue2stanHandler none (Except.error "conversion failed") true ∧
    Act.stanPublish ∈ queue2stanHandler none (Except.error "conversion failed") true := by
  constructor <;> simp [queue2stanHandler, queue2stanBody]

/-- C3 (amended): in the Queue2STAN handler conversion errors are logged
at notice level but the handler continues and still publishes the
conversion result; publish failures are notice-logged and followed by a
`Back` under sync-point; in the NATS2Queue handler the conversion error is
silently discarded (the trace equals the successful-conversion trace and
nothing is notice-logged when the put succeeds) and the put happens anyway,
while a failed put is notice-logged and the message dropped; no handler
path escalates a connector error or touches a shutdown operation, so the
connector keeps running. -/
theorem handler_error_policy :
    (∀ (e : String) (pubOk : Bool),
      Act.noticeLog ∈ queue2stanHandler none (Except.error e) pubOk ∧
      Act.stanPublish ∈ queue2stanHandler none (Except.error e) pubOk) ∧
    (∀ conv : Except String (List ℕ),
      List.Sublist [Act.noticeLog, Act.back] (queue2stanHandler none conv false)) ∧
    (∀ (conv : Except String (List ℕ)) (pubOk : Bool),
      ∀ a ∈ queue2stanHandler none conv pubOk,
        a ≠ Act.connectorError ∧ a.isShutdownOp = false) ∧
    (∀ e : String,
      nats2queueHandler (Except.error e) true = nats2queueHandler (Except.ok []) true ∧
      Act.put MQPMO_NO_SYNCPOINT ∈ nats2queueHandler (Except.error e) true ∧
      Act.noticeLog ∉ nats2queueHandler (Except.error e) true) ∧
    (∀ (conv : Except String (List ℕ)) (putOk : Bool),
      (putOk = false → Act.noticeLog ∈ nats2queueHandler conv putOk) ∧
      ∀ a ∈ nats2queueHandler conv putOk,
        a ≠ Act.connectorError ∧ a.isShutdownOp = false) := by
  refine ⟨?_, ?_, ?_, ?_, ?_⟩
  · intro e pubOk
    cases pubOk <;> simp [queue2stanHandler, queue2stanBody]
  · intro conv
    cases conv <;> simp only [queue2stanHandler, queue2stanBody, List.append_assoc,
      List.cons_append, List.nil_append] <;> decide
  · intro conv pubOk
    cases conv <;> cases pubOk <;> simp only [queue2stanHandler, queue2stanBody,
      List.append_assoc, List.cons_append, List.nil_append] <;> decide
  · intro e
    refine ⟨rfl, ?_, ?_⟩ <;> simp [nats2queueHandler]
  · intro conv putOk
    cases putOk <;> simp only [nats2queueHandler, List.append_assoc, List.cons_append,
      List.nil_append] <;> refine ⟨by decide, by decide⟩

/-- C3, witness: the amended theorem applied at concrete environments. -/
theorem handler_error_policy_witness :
    Act.noticeLog ∈ queue2stanHandler none (Except.error "bad") true ∧
    List.Sublist [Act.noticeLog, Act.back] (queue2stanHandler none (Except.ok []) false) ∧
    Act.noticeLog ∉ nats2queueHandler (Except.error "bad") true :=
  ⟨(handler_error_policy.1 "bad" true).1,
   handler_error_policy.2.1 (Except.ok []),
   (handler_error_policy.2.2.2.1 "bad").2.2⟩

/-- C7, counterexample: when `queue.Close(0)` fails, the first
`NATS2QueueConnector.Shutdown` returns that error (`return err` at line
164), refuting "returns success (a nil error) both times". -/
theorem shutdown_close_error_counterexample :
    (nats2queueShutdown (some "close failed") ⟨true, true, true, 0⟩).2.1 ≠ none := by
  decide

/-- C7 (amended): when the queue close succeeds — always for
`Queue2NATSConnector`, whose `Shutdown` only logs step errors and returns
nil unconditionally — two successive `Shutdown` calls return nil both
times, the MQ queue object is closed exactly once (by the first call),
and the second call performs no handle operations. -/
theorem double_shutdown_idempotent :
    (∀ (s : N2QState) (e2 : Option String),
      (nats2queueShutdown none s).2.1 = none ∧
      (nats2queueShutdown e2 (nats2queueShutdown none s).1).2.1 = none ∧
      (s.queue = true → (nats2queueShutdown none s).2.2.count Act.close = 1) ∧
      (nats2queueShutdown e2 (nats2queueShutdown none s).1).2.2.filter Act.isHandleOp = []) ∧
    (∀ (t : Q2NState) (cb1 c1 d1 cb2 c2 d2 : Option String),
      (queue2natsShutdown cb1 c1 d1 t).2.1 = none ∧
      (queue2natsShutdown cb2 c2 d2 (queue2natsShutdown cb1 c1 d1 t).1).2.1 = none ∧
      (t.queue = true → (queue2natsShutdown cb1 c1 d1 t).2.2.count Act.close = 1) ∧
      (queue2natsShutdown cb2 c2 d2
        (queue2natsShutdown cb1 c1 d1 t).1).2.2.filter Act.isHandleOp = []) := by
  constructor
  · rintro ⟨q, m, b, d⟩ e2
    cases q <;> cases m <;> cases b <;>
      simp [nats2queueShutdown, Act.isHandleOp, List.count_cons]
  · rintro ⟨cb, q, m, d⟩ cb1 c1 d1 cb2 c2 d2
    cases cb <;> cases q <;> cases m <;>
      rcases cb1 with _ | x1 <;> rcases c1 with _ | x2 <;> rcases d1 with _ | x3 <;>
      simp [queue2natsShutdown, Act.isHandleOp, List.count_cons, List.count_append]

/-- C7, witness: the amended theorem applied to a fully-open connector
state. -/
theorem double_shutdown_idempotent_witness :
    (nats2queueShutdown none ⟨true, true, true, 0⟩).2.1 = none ∧
    (nats2queueShutdown none ⟨true, true, true, 0⟩).2.2.count Act.close = 1 ∧
    (queue2natsShutdown none none none ⟨true, true, true, 0⟩).2.1 = none :=
  ⟨(double_shutdown_idempotent.1 ⟨true, true, true, 0⟩ none).1,
   (double_shutdown_idempotent.1 ⟨true, true, true, 0⟩ none).2.2.1 rfl,
   (double_shutdown_idempotent.2 ⟨true, true, true, 0⟩ none none none none none none).1⟩

/-- C10: both `Shutdown` implementations bump the statistics disconnect
counter unconditionally and before any handle operation (it is the first
action of the trace), so `n` successive `Shutdown` calls record `n`
disconnect events from any starting state — including a connector that was
never started or was already shut down. -/
theorem shutdown_counts_disconnects :
    (∀ (e : Option String) (s : N2QState),
      (nats2queueShutdown e s).1.disconnects = s.disconnects + 1 ∧
      (nats2queueShutdown e s).2.2.head? = some Act.statsDisconnect) ∧
    (∀ (cb c d : Option String) (t : Q2NState),
      (queue2natsShutdown cb c d t).1.disconnects = t.disconnects + 1 ∧
      (queue2natsShutdown cb c d t).2.2.head? = some Act.statsDisconnect) ∧
    (∀ (es : List (Option String)) (s : N2QState),
      (iterN2QShutdown es s).disconnects = s.disconnects + es.length) ∧
    (∀ (es : List (Option String × Option String × Option String)) (t : Q2NState),
      (iterQ2NShutdown es t).disconnects = t.disconnects + es.length) := by
  refine ⟨?_, ?_, ?_, ?_⟩
  · intro e s
    exact ⟨rfl, rfl⟩
  · intro cb c d t
    exact ⟨rfl, rfl⟩
  · intro es
    induction es with
    | nil => intro s; simp [iterN2QShutdown]
    | cons e rest ih =>
      intro s
      rw [iterN2QShutdown, ih]
      simp [nats2queueShutdown]
      omega
  · intro es
    induction es with
    | nil => intro t; simp [iterQ2NShutdown]
    | cons e rest ih =>
      intro t
      rw [iterQ2NShutdown, ih]
      simp [queue2natsShutdown]
      omega

/-!  Round-trip lemmas for the envelope codec. -/

theorem decNatW_enc : ∀ (w n : ℕ) (r : Bytes), n < 256 ^ w →
    decNatW w (encNat w n ++ r) = .ok (n, r) := by
  intro w
  induction w with
  | zero =>
    intro n r hn
    interval_cases n
    rfl
  | succ w ih =>
    intro n r hn
    rw [encNat, List.cons_append, decNatW, ih (n / 256) r (by
      have hlt : n < 256 ^ w * 256 := by rw [pow_succ] at hn; exact hn
      omega)]
    dsimp only
    have he : n % 256 + 256 * (n / 256) = n := by omega
    rw [he]

theorem decVarNat_encAux : ∀ (fuel n : ℕ) (r : Bytes), n < fuel →
    decVarNat (encVarNatAux fuel n ++ r) = .ok (n, r) := by
  intro fuel
  induction fuel with
  | zero => intro n r hn; omega
  | succ fuel ih =>
    intro n r hn
    rw [encVarNatAux]
    by_cases h : n < 128
    · rw [if_pos h, List.cons_append, List.nil_append, decVarNat, if_pos h]
    · rw [if_neg h, List.cons_append, decVarNat, if_neg (by omega),
        ih (n / 128) r (by omega)]
      dsimp only
      have he : 128 + n % 128 - 128 + 128 * (n / 128) = n := by omega
      rw [he]

theorem decVarNat_enc (n : ℕ) (r : Bytes) : decVarNat (encVarNat n ++ r) = .ok (n, r) :=
  decVarNat_encAux (n + 1) n r (by omega)

theorem decLP_enc (s r : Bytes) : decLP (encLP s ++ r) = .ok (s, r) := by
  rw [encLP, List.append_assoc, decLP, decVarNat_enc]
  dsimp only
  rw [if_pos (by simp), List.take_left, List.drop_left]

theorem readN_enc {s : Bytes} {n : ℕ} (h : s.length = n) (r : Bytes) :
    readN n (s ++ r) = .ok (s, r) := by
  rw [readN, if_pos (by simp; omega), List.take_left' h, List.drop_left' h]

theorem decFin_enc {m : ℕ} (w : ℕ) (x : Fin m) (hx : x.val < 256 ^ w) (r : Bytes) :
    decFin w m (encNat w x.val ++ r) = .ok (x, r) := by
  rw [decFin, decNatW_enc w x.val r hx]
  dsimp only
  rw [dif_pos x.isLt]

theorem decHdrString_enc {w : ℕ} {s : Bytes} (hw : s.length ≤ w) (ht : trimTrail s = s)
    (r : Bytes) : decHdrString (encHdrString w s ++ r) = .ok (s, r) := by
  rw [encHdrString, List.take_of_length_le hw, decHdrString, decLP_enc]
  dsimp only
  rw [ht]

theorem decId_enc {s : Bytes} (h : s.length = 24) (r : Bytes) :
    decId (encId s ++ r) = .ok (s, r) := by
  rw [encId, List.take_left' h, decId]
  exact readN_enc h r

theorem decPropValue_enc (v : PropValue) (r : Bytes) :
    decPropValue (propTag v) (encPropValue v ++ r) = .ok (v, r) := by
  cases v with
  | pnull => rfl
  | pbool b => cases b <;> rfl
  | pint8 x =>
    rw [propTag, encPropValue, decPropValue.eq_def,
      if_neg (by decide), if_neg (by decide), if_pos rfl,
      decFin_enc 1 x (by simpa using x.isLt) r]
  | pint16 x =>
    rw [propTag, encPropValue, decPropValue.eq_def,
      if_neg (by decide), if_neg (by decide), if_neg (by decide), if_pos rfl,
      decFin_enc 2 x (by simpa using x.isLt) r]
  | pint32 x =>
    rw [propTag, encPropValue, decPropValue.eq_def,
      if_neg (by decide), if_neg (by decide), if_neg (by decide), if_neg (by decide),
      if_pos rfl, decFin_enc 4 x (by simpa using x.isLt) r]
  | pint64 x =>
    rw [propTag, encPropValue, decPropValue.eq_def,
      if_neg (by decide), if_neg (by decide), if_neg (by decide), if_neg (by decide),
      if_neg (by decide), if_pos rfl, decFin_enc 8 x (by simpa using x.isLt) r]
  | pfloat32 x =>
    rw [propTag, encPropValue, decPropValue.eq_def,
      if_neg (by decide), if_neg (by decide), if_neg (by decide), if_neg (by decide),
      if_neg (by decide), if_neg (by decide), if_pos rfl,
      decFin_enc 4 x (by simpa using x.isLt) r]
  | pfloat64 x =>
    rw [propTag, encPropValue, decPropValue.eq_def,
      if_neg (by decide), if_neg (by decide), if_neg (by decide), if_neg (by decide),
      if_neg (by decide), if_neg (by decide), if_neg (by decide), if_pos rfl,
      decFin_enc 8 x (by simpa using x.isLt) r]
  | pstring s =>
    rw [propTag, encPropValue, decPropValue.eq_def,
      if_neg (by decide), if_neg (by decide), if_neg (by decide), if_neg (by decide),
      if_neg (by decide), if_neg (by decide), if_neg (by decide), if_neg (by decide),
      if_pos rfl, decLP_enc]
  | pbytes s =>
    rw [propTag, encPropValue, decPropValue.eq_def,
      if_neg (by decide), if_neg (by decide), if_neg (by decide), if_neg (by decide),
      if_neg (by decide), if_neg (by decide), if_neg (by decide), if_neg (by decide),
      if_neg (by decide), if_pos rfl, decLP_enc]

theorem decProp_enc {k : Bytes} (v : PropValue) (hk : k ≠ []) (r : Bytes) :
    decProp (encProp (k, v) ++ r) = .ok (k, v, r) := by
  rw [encProp]
  dsimp only
  rw [List.append_assoc, decProp, decLP_enc]
  dsimp only
  rw [if_neg hk, List.cons_append]
  dsimp only
  rw [decPropValue_enc]

theorem decProps_enc : ∀ (ps : List (Bytes × PropValue)) (r : Bytes),
    (∀ p ∈ ps, p.1 ≠ []) →
    decProps ps.length (encPropList ps ++ r) = .ok (ps, r) := by
  intro ps
  induction ps with
  | nil => intro r _; rfl
  | cons p rest ih =>
    intro r hk
    rw [List.length_cons, encPropList, List.append_assoc, decProps,
      decProp_enc p.2 (hk p (by simp)) _]
    dsimp only
    rw [ih r (fun q hq => hk q (by simp [hq]))]
theorem decHeader_enc (h : BridgeHeader) (r : Bytes) (hv : ValidHeader h) :
    decHeader (encHeader h ++ r) = .ok (h, r) := by
  obtain ⟨hFormatLen, hFormatTrim, hMsgIDLen, hCorrelIDLen, hAccountingTokenLen, hGroupIDLen, hReplyToQLen, hReplyToQTrim, hReplyToQMgrLen, hReplyToQMgrTrim, hUserIdentifierLen, hUserIdentifierTrim, hApplIdentityDataLen, hApplIdentityDataTrim, hPutApplNameLen, hPutApplNameTrim, hPutDateLen, hPutDateTrim, hPutTimeLen, hPutTimeTrim, hApplOriginDataLen, hApplOriginDataTrim⟩ := hv
  rw [encHeader]
  simp only [List.append_assoc]
  rw [decHeader]
  rw [decFin_enc 4 h.Version (by simpa using h.Version.isLt) _]
  simp only [Bind.bind, Except.bind]
  rw [decFin_enc 4 h.Report (by simpa using h.Report.isLt) _]
  simp only [Bind.bind, Except.bind]
  rw [decFin_enc 4 h.MsgType (by simpa using h.MsgType.isLt) _]
  simp only [Bind.bind, Except.bind]
  rw [decFin_enc 4 h.Expiry (by simpa using h.Expiry.isLt) _]
  simp only [Bind.bind, Except.bind]
  rw [decFin_enc 4 h.Feedback (by simpa using h.Feedback.isLt) _]
  simp only [Bind.bind, Except.bind]
  rw [decFin_enc 4 h.Encoding (by simpa using h.Encoding.isLt) _]
  simp only [Bind.bind, Except.bind]
  rw [decFin_enc 4 h.CodedCharSetID (by simpa using h.CodedCharSetID.isLt) _]
  simp only [Bind.bind, Except.bind]
  rw [decHdrString_enc hFormatLen hFormatTrim _]
  simp only [Bind.bind, Except.bind]
  rw [decFin_enc 4 h.Priority (by simpa using h.Priority.isLt) _]
  simp only [Bind.bind, Except.bind]
  rw [decFin_enc 4 h.Persistence (by simpa using h.Persistence.isLt) _]
  simp only [Bind.bind, Except.bind]
  rw [decId_enc hMsgIDLen _]
  simp only [Bind.bind, Except.bind]
  rw [decId_enc hCorrelIDLen _]
  simp only [Bind.bind, Except.bind]
  rw [decId_enc hAccountingTokenLen _]
  simp only [Bind.bind, Except.bind]
  rw [decId_enc hGroupIDLen _]
  simp only [Bind.bind, Except.bind]
  rw [decFin_enc 4 h.BackoutCount (by simpa using h.BackoutCount.isLt) _]
  simp only [Bind.bind, Except.bind]
  rw [decHdrString_enc hReplyToQLen hReplyToQTrim _]
  simp only [Bind.bind, Except.bind]
  rw [decHdrString_enc hReplyToQMgrLen hReplyToQMgrTrim _]
  simp only [Bind.bind, Except.bind]
  rw [decHdrString_enc hUserIdentifierLen hUserIdentifierTrim _]
  simp only [Bind.bind, Except.bind]
  rw [decHdrString_enc hApplIdentityDataLen hApplIdentityDataTrim _]
  simp only [Bind.bind, Except.bind]
  rw [decFin_enc 4 h.PutApplType (by simpa using h.PutApplType.isLt) _]
  simp only [Bind.bind, Except.bind]
  rw [decHdrString_enc hPutApplNameLen hPutApplNameTrim _]
  simp only [Bind.bind, Except.bind]
  rw [decHdrString_enc hPutDateLen hPutDateTrim _]
  simp only [Bind.bind, Except.bind]
  rw [decHdrString_enc hPutTimeLen hPutTimeTrim _]
  simp only [Bind.bind, Except.bind]
  rw [decHdrString_enc hApplOriginDataLen hApplOriginDataTrim _]
  simp only [Bind.bind, Except.bind]
  rw [decFin_enc 4 h.MsgSeqNumber (by simpa using h.MsgSeqNumber.isLt) _]
  simp only [Bind.bind, Except.bind]
  rw [decFin_enc 4 h.Offset (by simpa using h.Offset.isLt) _]
  simp only [Bind.bind, Except.bind]
  rw [decFin_enc 4 h.MsgFlags (by simpa using h.MsgFlags.isLt) _]
  simp only [Bind.bind, Except.bind]
  rw [decFin_enc 4 h.OriginalLength (by simpa using h.OriginalLength.isLt) _]
  simp only [Bind.bind, Except.bind]
  rfl


theorem decLP_enc_nil (s : Bytes) : decLP (encLP s) = .ok (s, []) := by
  have he := decLP_enc s []
  rwa [List.append_nil] at he

/-- C1 (amended): for every bridge message with a valid header (string
fields within their declared widths and free of trailing NUL/space bytes,
identifier fields exactly 24 bytes), any set of properties under
pairwise-distinct nonempty keys — each value one of the 10 supported
types — and any body of at most 64 KiB, decoding the encoding
(`DecodeBridgeMessage` after `Encode`) succeeds and returns the message
field-for-field, every property recovered under its exact original type. -/
theorem encode_decode_roundtrip (m : BridgeMessage) (hv : ValidMessage m) :
    DecodeBridgeMessage m.Encode = .ok m := by
  obtain ⟨hh, hkeys, hnodup, _⟩ := hv
  rw [BridgeMessage.Encode, List.append_assoc, List.append_assoc, DecodeBridgeMessage]
  rw [decHeader_enc m.Header _ hh]
  simp only [Bind.bind, Except.bind]
  rw [decVarNat_enc]
  simp only [Bind.bind, Except.bind]
  rw [decProps_enc m.Properties _ hkeys]
  simp only [Bind.bind, Except.bind]
  rw [if_pos hnodup, decLP_enc_nil]
  simp only [Bind.bind, Except.bind, if_true]
  rfl

set_option maxRecDepth 100000 in
/-- C1, counterexample: a message whose `MsgID` is empty is zero-padded
to 24 bytes on encode, so decode(encode(x)) returns a different message —
the claim fails for an arbitrary header field assignment. -/
theorem encode_decode_counterexample :
    DecodeBridgeMessage c1CexMsg.Encode ≠ .ok c1CexMsg := by decide

set_option maxRecDepth 100000 in
/-- C1, witness: the amended theorem applied to a concrete valid message
carrying all 10 property types. -/
theorem encode_decode_roundtrip_witness :
    ValidMessage c1WitnessMsg ∧ DecodeBridgeMessage c1WitnessMsg.Encode = .ok c1WitnessMsg :=
  ⟨by decide, encode_decode_roundtrip c1WitnessMsg (by decide)⟩
